import Mathlib

/-!
Verification of the dependency-graph builder and path-trie nesting engine of a
CycloneDX SBOM generator for NPM projects (source: src/builders.ts).

Strings from the source are modelled as lists of characters (Str), so that the
string operations used by the code (startsWith, slice, concatenation) map to
well-understood list operations. External collaborators (the component builder,
package-data normalizer, PURL factory and the node path module) are out of the
modelled core per the specification and enter as parameters or opaque data.
-/

abbrev Str := List Char

/-! ### Integrity hash extraction (builders.ts lines 368-406 and 497-507)

The source holds a pre-sorted map from hash algorithms to anchored regular
expressions and, in makeComponent, runs them in order over the integrity
string; the first pattern that matches wins, its base64 capture group is
decoded (Buffer.from(-, 'base64')) and re-encoded as lowercase hex. -/

inductive HashAlgorithm where
  | sha512
  | sha1
  | sha256
  | sha384
  deriving DecidableEq

/-- The character class of the integrity regexes: [a-z0-9+/] under the /i flag,
    that is the base64 alphabet without padding. -/
def isBase64Char (c : Char) : Bool :=
  ('A' ≤ c && c ≤ 'Z') || ('a' ≤ c && c ≤ 'z') || ('0' ≤ c && c ≤ '9') || c = '+' || c = '/'

/-- One anchored integrity regex of shape tag-([a-z0-9+/]{n}={pad})$ with the /i
    flag; returns the capture group (base64 payload including padding), as
    RegExp.exec does for the patterns at builders.ts lines 378, 387, 396, 405. -/
def matchIntegrityRE (tag : Str) (n pad : Nat) (s : Str) : Option Str :=
  if tag.isPrefixOf s then
    let body := s.drop tag.length
    if body.length = n + pad ∧ (body.take n).all isBase64Char ∧ (body.drop n).all (· = '=')
    then some body
    else none
  else none

/-- The pre-sorted pattern list of builders.ts lines 368-406: sha512 (86 chars,
    2 padding), sha1 (27 chars, 1 padding), sha256 (43 chars, 1 padding),
    sha384 (64 chars, no padding), in this order. -/
def integrityRE : List (HashAlgorithm × (Str → Option Str)) :=
  [ (.sha512, matchIntegrityRE "sha512-".data 86 2)
  , (.sha1, matchIntegrityRE "sha1-".data 27 1)
  , (.sha256, matchIntegrityRE "sha256-".data 43 1)
  , (.sha384, matchIntegrityRE "sha384-".data 64 0) ]

/-- Standard base64 value of one alphabet character (none for anything else,
    in particular for the padding character). -/
def base64CharVal (c : Char) : Option Nat :=
  if 'A' ≤ c && c ≤ 'Z' then some (c.toNat - 'A'.toNat)
  else if 'a' ≤ c && c ≤ 'z' then some (c.toNat - 'a'.toNat + 26)
  else if '0' ≤ c && c ≤ '9' then some (c.toNat - '0'.toNat + 52)
  else if c = '+' then some 62
  else if c = '/' then some 63
  else none

/-- Base64 decoding of a padded base64 string in 4-character blocks, as
    Buffer.from(-, 'base64') behaves on the regex-validated capture groups
    that reach it (builders.ts line 503). -/
def base64Decode : Str → Option (List Nat)
  | [] => some []
  | c1 :: c2 :: c3 :: c4 :: rest =>
    match base64CharVal c1, base64CharVal c2 with
    | some v1, some v2 =>
      if c3 = '=' then
        if c4 = '=' ∧ rest = [] then some [v1 * 4 + v2 / 16] else none
      else
        match base64CharVal c3 with
        | some v3 =>
          if c4 = '=' then
            if rest = [] then some [v1 * 4 + v2 / 16, v2 % 16 * 16 + v3 / 4] else none
          else
            match base64CharVal c4 with
            | some v4 =>
              match base64Decode rest with
              | some bs =>
                some ((v1 * 4 + v2 / 16) :: (v2 % 16 * 16 + v3 / 4) :: (v3 % 4 * 64 + v4) :: bs)
              | none => none
            | none => none
        | none => none
    | _, _ => none
  | _ => none

def hexDigitChars : Str := "0123456789abcdef".data

def hexDigit (n : Nat) : Char := hexDigitChars.getD n '0'

/-- Lowercase hexadecimal rendering of a byte list, as Buffer.toString('hex'). -/
def bytesToHex : List Nat → Str
  | [] => []
  | b :: r => hexDigit (b / 16) :: hexDigit (b % 16) :: bytesToHex r

/-- The first-match-wins loop of makeComponent over the integrity patterns
    (builders.ts lines 497-507): the matched capture is base64-decoded and
    hex-encoded, and the loop breaks after the first hit. -/
def integrityLoop : List (HashAlgorithm × (Str → Option Str)) → Str → List (HashAlgorithm × Str)
  | [], _ => []
  | (alg, re) :: rest, s =>
    match re s with
    | some cap => [(alg, bytesToHex ((base64Decode cap).getD []))]
    | none => integrityLoop rest s

/-- Hash extraction from an integrity string: the hashes dictionary built at
    builders.ts lines 494-507 (at most one entry because of the break). -/
def extractIntegrityHashes (integrity : Str) : List (HashAlgorithm × Str) :=
  integrityLoop integrityRE integrity

/-! ### TreeBuilder (builders.ts lines 613-652)

The source type is PTree = Map<string, PTree>. A JavaScript Map is an
insertion-ordered association list, so one Map level is modelled as a sibling
spine folded into the inductive itself: a PTree value below is one Map, where
node k c r is the entry (k, c) followed by the remaining entries r of the same
Map. Map.set on a fresh key appends at the end; on an existing key it replaces
the value in place. Iteration is in insertion order and skips entries deleted
before they are reached, which the loop models below reproduce. -/

inductive PTree where
  | nil
  | node (key : Str) (children : PTree) (next : PTree)
  deriving DecidableEq

/-- Keys of one Map level, in insertion order (Map.keys()). -/
def PTree.keys : PTree → List Str
  | .nil => []
  | .node k _ r => k :: PTree.keys r

/-- Map.get. -/
def PTree.lookup (a : Str) : PTree → Option PTree
  | .nil => none
  | .node k c r => if k = a then some c else PTree.lookup a r

/-- Map.size of one level. -/
def PTree.plen : PTree → Nat
  | .nil => 0
  | .node _ _ r => PTree.plen r + 1

/-- Total number of nodes over all levels; used as recursion fuel for the
    nesting pass, one unit per nesting level. -/
def PTree.psize : PTree → Nat
  | .nil => 0
  | .node _ c r => 1 + PTree.psize c + PTree.psize r

/-- Map.set: replace in place when the key exists, append otherwise. -/
def PTree.setK (k : Str) (v : PTree) : PTree → PTree
  | .nil => .node k v .nil
  | .node k' c r => if k' = k then .node k' v r else .node k' c (PTree.setK k v r)

/-- Concatenation of two levels (helper for reasoning about append-like sets). -/
def PTree.cat : PTree → PTree → PTree
  | .nil, u => u
  | .node k c r, u => .node k c (PTree.cat r u)

/-- The entries that the inner loop of nestPT (builders.ts lines 637-647) moves
    under the outer key a — those with b distinct from a and a a string prefix
    of b — re-keyed to their remaining suffix b.slice(a.length), in iteration
    order. -/
def movedOf (a : Str) : PTree → PTree
  | .nil => .nil
  | .node b bT r =>
    if b ≠ a ∧ a.isPrefixOf b then .node (b.drop a.length) bT (movedOf a r)
    else movedOf a r

/-- The same moved entries with their original keys (proof device for relating
    the moved block to the original tree). -/
def keepMoved (a : Str) : PTree → PTree
  | .nil => .nil
  | .node b bT r =>
    if b ≠ a ∧ a.isPrefixOf b then .node b bT (keepMoved a r)
    else keepMoved a r

/-- The level after tree.delete(b) removed every moved entry. -/
def removeMoved (a : Str) : PTree → PTree
  | .nil => .nil
  | .node b bT r =>
    if b ≠ a ∧ a.isPrefixOf b then removeMoved a r
    else .node b bT (removeMoved a r)

/-- Sequence of Map.set calls: the entries of the first level are set into the
    second one in order, as the inner loop does on the subtree of the outer key. -/
def insertAll : PTree → PTree → PTree
  | .nil, t => t
  | .node k c r, t => insertAll r (PTree.setK k c t)

/-- Update of the entry a by (tree.get(a) as PTree).set(...) for each moved
    entry. -/
def addInto (a : Str) (m : PTree) : PTree → PTree
  | .nil => .nil
  | .node k c r => if k = a then .node k (insertAll m c) r else .node k c (addInto a m r)

/-- One full pass of the inner loop of nestPT for the outer key a: the moved
    entries are set into the subtree of a and deleted from the level. -/
def moveUnder (a : Str) (t : PTree) : PTree := addInto a (movedOf a t) (removeMoved a t)

/-- The outer loop for (const a of tree.keys()) of nestPT: the pending keys are
    the live iterator's order; a key deleted before it is reached (no longer in
    the map) is skipped. No top-level key is ever added during the pass. -/
def outerLoop : List Str → PTree → PTree
  | [], t => t
  | a :: rest, t =>
    outerLoop rest (if (PTree.lookup a t).isSome then moveUnder a t else t)

/-- Apply a pass to the subtree of every entry of a level, in order
    (for (const c of tree.values()) nestPT(c)). -/
def mapChildrenWith (g : PTree → PTree) : PTree → PTree
  | .nil => .nil
  | .node k c r => .node k (g c) (mapChildrenWith g r)

/-- TreeBuilder.nestPT (builders.ts lines 632-651): on a level with fewer than
    two entries there is nothing to compare; otherwise run the double loop over
    the level, then recurse into every child level. The Nat argument is fuel,
    one unit per nesting level; psize is always sufficient, and every theorem
    below holds for every fuel value. -/
def nestPTFuel : Nat → PTree → PTree
  | 0, t => t
  | fuel + 1, t =>
    if PTree.plen t < 2 then t else mapChildrenWith (nestPTFuel fuel) (outerLoop (PTree.keys t) t)

def nestPT (t : PTree) : PTree := nestPTFuel (PTree.psize t) t

/-- TreeBuilder.renderPR (builders.ts lines 623-630), collision-free reading:
    every entry is deleted and re-inserted under pref + key with the trailing
    separator sliced off, after its subtree was rendered under the longer
    prefix, the level keeping its order. This pure re-keying coincides with the
    source loop exactly when no fresh key collides with a still-present raw
    sibling key; renderSpine below models the exact Map.set replace-in-place
    semantics, which on such a collision loses the overwritten node. Raw keys
    always end with the separator, and rendered keys never do when no input
    path ends with the separator, which rules the collision out (the
    equivalence is proved below under that hypothesis). -/
def renderPR (pref : Str) : PTree → PTree
  | .nil => .nil
  | .node p c r => .node ((pref ++ p).dropLast) (renderPR (pref ++ p) c) (renderPR pref r)

/-- The initial one-leaf-per-path level of TreeBuilder.fromPaths
    (builders.ts line 617): key = path + dirSeparator, empty subtree. -/
def fromPathsInit : List Str → Char → PTree
  | [], _ => .nil
  | p :: r, sep => .node (p ++ [sep]) .nil (fromPathsInit r sep)

/-- TreeBuilder.fromPaths (builders.ts lines 616-621) with the collision-free
    render pass. The separator is a single character in the source ('/' or a
    backslash). -/
def fromPaths (paths : List Str) (sep : Char) : PTree :=
  renderPR [] (nestPT (fromPathsInit paths sep))

/-- Map.delete: remove the entry with the given key, keeping the rest in
    order (a Map holds at most one entry per key). -/
def PTree.delK (k : Str) : PTree → PTree
  | .nil => .nil
  | .node k' c r => if k' = k then r else .node k' c (PTree.delK k r)

/-- TreeBuilder.renderPR (builders.ts lines 623-630) with the exact JavaScript
    Map semantics. The loop iterates over a snapshot [...tree.entries()] of the
    level (first tree argument: the remaining snapshot entries; second: the
    live map). Each step deletes the snapshot key from the live map, renders
    the captured subtree under the longer prefix pFull = pref + key, and
    re-sets the result under pFull with the trailing separator sliced off -
    where Map.set REPLACES in place when that rendered key coincides with a
    still-present raw sibling key, whose own later snapshot step then deletes
    the replaced entry, losing the rendered node. -/
def renderSpine (pref : Str) : PTree → PTree → PTree
  | .nil, live => live
  | .node p pT r, live =>
    renderSpine pref r
      (PTree.setK ((pref ++ p).dropLast) (renderSpine (pref ++ p) pT pT)
        (PTree.delK p live))

/-- TreeBuilder.fromPaths with the render pass under the exact Map semantics:
    the snapshot of the nested tree is walked over the nested tree itself. -/
def fromPathsM (paths : List Str) (sep : Char) : PTree :=
  renderSpine [] (nestPT (fromPathsInit paths sep)) (nestPT (fromPathsInit paths sep))

/-- Full reconstructed keys of every node of a level, relative to that level:
    a node's reconstruction is the concatenation of its ancestors' keys inside
    this level followed by its own key (pre-order). -/
def PTree.gp : PTree → List Str
  | .nil => []
  | .node k c r => k :: ((PTree.gp c).map (k ++ ·) ++ PTree.gp r)

/-- All node keys of a tree, every level, pre-order. -/
def PTree.fkeys : PTree → List Str
  | .nil => []
  | .node k c r => k :: (PTree.fkeys c ++ PTree.fkeys r)

/-- All nodes of a tree as (key, subtree) pairs, every level, pre-order. -/
def PTree.allEntries : PTree → List (Str × PTree)
  | .nil => []
  | .node k c r => (k, c) :: (PTree.allEntries c ++ PTree.allEntries r)

/-- The node keyed q lies somewhere strictly inside the subtree of the node
    keyed p. -/
def nestedUnder (t : PTree) (p q : Str) : Prop :=
  ∃ e ∈ PTree.allEntries t, e.1 = p ∧ q ∈ PTree.fkeys e.2

/-- The node keyed q is a direct child of the node keyed p. -/
def childOf (t : PTree) (p q : Str) : Prop :=
  ∃ e ∈ PTree.allEntries t, e.1 = p ∧ q ∈ PTree.keys e.2

/-- The nodes keyed p and q are siblings: entries of one and the same level. -/
def siblings (t : PTree) (p q : Str) : Prop :=
  (p ∈ PTree.keys t ∧ q ∈ PTree.keys t) ∨
    ∃ e ∈ PTree.allEntries t, p ∈ PTree.keys e.2 ∧ q ∈ PTree.keys e.2

instance decNestedUnder (t : PTree) (p q : Str) : Decidable (nestedUnder t p q) := by
  unfold nestedUnder
  infer_instance

instance decChildOf (t : PTree) (p q : Str) : Decidable (childOf t p q) := by
  unfold childOf
  infer_instance

instance decSiblings (t : PTree) (p q : Str) : Decidable (siblings t p q) := by
  unfold siblings
  infer_instance

/-- A well-formed trie key: non-empty and ending with the separator. The
    initial keys path + separator satisfy it and the nesting pass preserves it. -/
def keyOkP (sep : Char) (k : Str) : Prop := k ≠ [] ∧ k.getLast? = some sep

/-- Every key of every level satisfies keyOkP. -/
def keysOkR (sep : Char) : PTree → Prop
  | .nil => True
  | .node k c r => keyOkP sep k ∧ keysOkR sep c ∧ keysOkR sep r

/-! ### BomBuilder data model (builders.ts lines 32-60, 211-611)

External collaborators are outside the modelled core per the specification:
the component-construction collaborator enters as a parameter cb (the deep
clone, enhancedPackageData, normalize-package-data and the version-restore of
builders.ts lines 437-448 only shape cb's input and are folded into it), the
node path module's relative() as a parameter relativeF, and the PURL factory
is not modelled (no claim touches it). -/

inductive OmittableDependencyType where
  | dev
  | optional
  | peer
  deriving DecidableEq

inductive ComponentType where
  | application
  | firmware
  | library
  deriving DecidableEq

inductive ComponentScope where
  | required
  | optional
  | excluded
  deriving DecidableEq

/-- Modelled from the spec: the property-name constants of the external
    properties module (install path, development, extraneous, private and
    bundled flags) and its boolean true value; only their identity matters. -/
def PropertyNames.PackageInstallPath : Str := "cdx:npm:package:path".data

def PropertyNames.PackageDevelopment : Str := "cdx:npm:package:development".data

def PropertyNames.PackageExtraneous : Str := "cdx:npm:package:extraneous".data

def PropertyNames.PackagePrivate : Str := "cdx:npm:package:private".data

def PropertyNames.PackageBundled : Str := "cdx:npm:package:bundled".data

def PropertyValueBool.True : Str := "true".data

/-- External reference with hashes, as far as makeComponent populates it
    (builders.ts lines 509-519). -/
structure ExtRef where
  url : Str
  hashes : List (HashAlgorithm × Str)
  comment : Str
  deriving DecidableEq

/-- The slice of Models.Component that the modelled core reads and writes.
    The dummy flag models the DummyComponent subclass tag (the instanceof check
    of builders.ts line 330); the PURL of the external factory is not modelled. -/
structure Component where
  ctype : ComponentType
  name : Str
  version : Option Str
  group : Option Str
  scope : Option ComponentScope
  properties : List (Str × Str)
  extRefs : List ExtRef
  bomRef : Option Str
  description : Option Str
  dummy : Bool
  deriving DecidableEq

/-- DummyComponent (builders.ts lines 604-611). -/
def dummyComponent (t : ComponentType) (name : Str) : Component :=
  { ctype := t
  , name := "DummyComponent.".data ++ name
  , version := none
  , group := none
  , scope := none
  , properties := []
  , extRefs := []
  , bomRef := some ("DummyComponent.".data ++ name)
  , description := some ("This is a dummy component \"".data ++ name
      ++ "\" that fills the gap where the actual built failed.".data)
  , dummy := true }

instance : Nonempty Component := ⟨dummyComponent .library []⟩

/-- Scalar fields of one raw npm-ls node; none models a missing, non-string or
    non-boolean JSON value, and the legacy-named twins are the fields that older
    npm-ls versions (v6) hide behind an underscore alias. -/
structure RawFields where
  path : Option Str := none
  version : Option Str := none
  optional : Option Bool := none
  legacyOptional : Option Bool := none
  dev : Option Bool := none
  legacyDevelopment : Option Bool := none
  devOptional : Option Bool := none
  extraneous : Option Bool := none
  privateF : Option Bool := none
  inBundle : Option Bool := none
  legacyInBundle : Option Bool := none
  resolved : Option Str := none
  legacyResolved : Option Str := none
  integrity : Option Str := none
  legacyIntegrity : Option Str := none
  idField : Option Str := none
  deriving DecidableEq

mutual
/-- One raw dependency-tree node: its scalar fields plus the dependencies map. -/
inductive RawNode where
  | mk (fields : RawFields) (deps : RawDeps)
/-- Entries of a raw node's dependencies object in iteration order; a
    consInvalid entry models a value that is null or not an object
    (builders.ts lines 311-314). -/
inductive RawDeps where
  | nil
  | cons (name : Str) (child : RawNode) (rest : RawDeps)
  | consInvalid (name : Str) (rest : RawDeps)
end

def RawNode.fields : RawNode → RawFields
  | .mk f _ => f

def RawNode.deps : RawNode → RawDeps
  | .mk _ d => d

/-- Effective flag reading (builders.ts lines 417, 424, 483): the canonical
    field with nullish fallback to the legacy alias, strict-compared with true. -/
def effFlag (f legacy : Option Bool) : Bool := ((f <|> legacy).getD false)

mutual
/-- Node count of a raw tree (induction measure for the walk lemmas). -/
def RawNode.nsize : RawNode → Nat
  | .mk _ d => 1 + RawDeps.dsize d
def RawDeps.dsize : RawDeps → Nat
  | .nil => 0
  | .cons _ c r => 1 + RawNode.nsize c + RawDeps.dsize r
  | .consInvalid _ r => 1 + RawDeps.dsize r
end

/-- Result of makeComponent: false (policy skip), undefined (broken beyond
    normalization) or a component. -/
inductive MkResult where
  | skip
  | broken
  | comp (c : Component)
  deriving DecidableEq

/-- What the external componentBuilder.makeComponent returns for the normalized
    package data: the identity coordinates of the fresh component, or none when
    the record is malformed beyond repair; priv is the normalized clone's
    private flag read at builders.ts line 477. -/
structure BuiltComp where
  name : Str
  version : Option Str
  group : Option Str
  priv : Bool := false
  deriving DecidableEq

/-- The group-or-dash / version-or-dash readings of builders.ts line 528,
    where the empty string also falls through. -/
def strOrDash : Option Str → Str
  | some v => if v = [] then "-".data else v
  | none => "-".data

/-- Ignore pattern for resolved (builders.ts line 413): values beginning with
    ignore: or file:, case-insensitive. -/
def resolvedIgnore (s : Str) : Bool :=
  ("ignore:".data).isPrefixOf (s.map Char.toLower)
    || ("file:".data).isPrefixOf (s.map Char.toLower)

/-- BomBuilder.makeComponent (builders.ts lines 415-531). -/
def makeComponent (omitDT : List OmittableDependencyType) (cb : RawFields → Option BuiltComp)
    (data : RawNode) (type : Option ComponentType) : MkResult :=
  let f := data.fields
  let isOptional := effFlag f.optional f.legacyOptional
  if isOptional ∧ omitDT.contains .optional then .skip
  else
    let isDev := effFlag f.dev f.legacyDevelopment
    if isDev ∧ omitDT.contains .dev then .skip
    else
      -- attention: devOptional entries are not to be skipped with devs alone,
      -- since they are still required by optionals (builders.ts line 430)
      let isDevOptional := f.devOptional.getD false
      if isDevOptional ∧ omitDT.contains .dev ∧ omitDT.contains .optional then .skip
      else
        match cb f with
        | none => .broken
        | some bc =>
          let props :=
            (if f.path.isSome
              then [(PropertyNames.PackageInstallPath, f.path.getD [])] else [])
            ++ (if isDev || isDevOptional
              then [(PropertyNames.PackageDevelopment, PropertyValueBool.True)] else [])
            ++ (if f.extraneous.getD false
              then [(PropertyNames.PackageExtraneous, PropertyValueBool.True)] else [])
            ++ (if f.privateF.getD false || bc.priv
              then [(PropertyNames.PackagePrivate, PropertyValueBool.True)] else [])
            ++ (if effFlag f.inBundle f.legacyInBundle
              then [(PropertyNames.PackageBundled, PropertyValueBool.True)] else [])
          let extRefs : List ExtRef :=
            match f.resolved <|> f.legacyResolved with
            | some r =>
              if resolvedIgnore r then []
              else
                let hashes :=
                  match f.integrity <|> f.legacyIntegrity with
                  | some i => extractIntegrityHashes i
                  | none => []
                [{ url := r
                 , hashes := hashes
                 , comment := "as detected from npm-ls property \"resolved\"".data
                     ++ (if hashes.length > 0 then " and property \"integrity\"".data else []) }]
            | none => []
          let fallbackRef :=
            strOrDash bc.group ++ "/".data ++ bc.name ++ "@".data ++ strOrDash bc.version
          let ref :=
            match f.idField with
            | some id => if id = [] then fallbackRef else id
            | none => fallbackRef
          .comp
            { ctype := type.getD .library
            , name := bc.name
            , version := bc.version
            , group := bc.group
            , scope := if isOptional || isDevOptional then some .optional else none
            , properties := props
            , extRefs := extRefs
            , bomRef := some ref
            , description := none
            , dummy := false }

/-- Per-build state of the graph walk: the component map keyed by install path
    (the root sits at the raw root's path value, possibly missing) and the
    dependency reference sets of the components, keyed by the owning component's
    map key. A bomRef object belongs to exactly one component and components are
    keyed bijectively by their map key, so an edge directDepRefs.add(dep.bomRef)
    is recorded as the target's install path under the owner's key. -/
structure GState where
  comps : List (Option Str × Component)
  depRefs : List (Option Str × List Str)
  deriving DecidableEq

def lookupComp (k : Option Str) : List (Option Str × Component) → Option Component
  | [] => none
  | (k', c) :: r => if k' = k then some c else lookupComp k r

/-- Set.add on a dependency reference set: no duplicate is appended. -/
def addRefTo (ref : Str) (refs : List Str) : List Str :=
  if ref ∈ refs then refs else refs ++ [ref]

def addDepRef (owner : Option Str) (ref : Str) :
    List (Option Str × List Str) → List (Option Str × List Str)
  | [] => [(owner, [ref])]
  | (k, refs) :: r =>
    if k = owner then (k, addRefTo ref refs) :: r else (k, refs) :: addDepRef owner ref r

def GState.addEdge (st : GState) (owner : Option Str) (ref : Str) : GState :=
  { st with depRefs := addDepRef owner ref st.depRefs }

def GState.addComp (st : GState) (p : Str) (c : Component) : GState :=
  { st with comps := st.comps ++ [(some p, c)] }

mutual
/-- BomBuilder.gatherDependencies (builders.ts lines 301-340) over the entries
    of one raw node's dependencies object: entries that are not objects or lack
    a string path are skipped; a child whose path is already in the map only
    gets the edge recorded before the walk descends; a fresh child is
    normalized, policy-skips drop the entry entirely, a broken record becomes an
    InterferedDependency dummy, and in both remaining cases the component is
    stored under its path, the edge recorded, and the walk descends. -/
def gatherDeps (omitDT : List OmittableDependencyType) (cb : RawFields → Option BuiltComp) :
    GState → Option Str → RawDeps → GState
  | st, _, .nil => st
  | st, owner, .consInvalid _ rest =>
    -- cannot build
    gatherDeps omitDT cb st owner rest
  | st, owner, .cons depName child rest =>
    match (RawNode.fields child).path with
    | none =>
      -- might be an optional dependency that was not installed: skip
      gatherDeps omitDT cb st owner rest
    | some p =>
      match lookupComp (some p) st.comps with
      | some _ =>
        -- reuse the canonical component: record the edge, then descend
        gatherDeps omitDT cb (gatherNode omitDT cb (st.addEdge owner p) (some p) child)
          owner rest
      | none =>
        match makeComponent omitDT cb child none with
        | .skip => gatherDeps omitDT cb st owner rest
        | .broken =>
          let dep := dummyComponent .library ("InterferedDependency.".data ++ depName)
          gatherDeps omitDT cb
            (gatherNode omitDT cb ((st.addComp p dep).addEdge owner p) (some p) child)
            owner rest
        | .comp c =>
          gatherDeps omitDT cb
            (gatherNode omitDT cb ((st.addComp p c).addEdge owner p) (some p) child)
            owner rest

/-- Recursion of gatherDependencies into one child's own dependencies, with
    directDepRefs being the dependency set of the component at the given key. -/
def gatherNode (omitDT : List OmittableDependencyType) (cb : RawFields → Option BuiltComp) :
    GState → Option Str → RawNode → GState
  | st, owner, .mk _ ds => gatherDeps omitDT cb st owner ds
end

/-- One assembled node of the components forest: the component at an install
    path with its nested children (Models.Component.components), with the
    sibling spine folded in like in the PTree encoding. -/
inductive CompForest where
  | nil
  | node (path : Str) (c : Component) (children : CompForest) (next : CompForest)
  deriving DecidableEq

def CompForest.cat : CompForest → CompForest → CompForest
  | .nil, u => u
  | .node p c ch r, u => .node p c ch (CompForest.cat r u)

def lookupStrComp (k : Str) : List (Str × Component) → Option Component
  | [] => none
  | (k', c) :: r => if k' = k then some c else lookupStrComp k r

/-- BomBuilder.nestComponents (builders.ts lines 286-299): zip the trie with the
    component map; the assembled subtree of a trie node whose path holds no
    component is spliced directly into the surrounding repository. -/
def nestComponents (cmap : List (Str × Component)) : PTree → CompForest
  | .nil => .nil
  | .node p pT r =>
    match lookupStrComp p cmap with
    | none => (nestComponents cmap pT).cat (nestComponents cmap r)
    | some c => .node p c (nestComponents cmap pT) (nestComponents cmap r)

/-- BomBuilder.adjustNestedBomRefs (builders.ts lines 277-284): every reference
    token is prefixed with its ancestor chain, the pipe character in between; a
    component without a token is left alone and its children are not visited. -/
def adjustF (pref : Str) : CompForest → CompForest
  | .nil => .nil
  | .node p c ch r =>
    match c.bomRef with
    | none => .node p c ch (adjustF pref r)
    | some v =>
      .node p { c with bomRef := some (pref ++ v) }
        (adjustF (pref ++ v ++ "|".data) ch) (adjustF pref r)

def CompForest.topEntries : CompForest → List (Str × Component)
  | .nil => []
  | .node p c _ r => (p, c) :: CompForest.topEntries r

/-- Pre-order search for the (mutated, shared) component object at a path. -/
def lookupForest (p : Str) : CompForest → Option Component
  | .nil => none
  | .node p' c ch r =>
    if p' = p then some c
    else
      match lookupForest p ch with
      | some c' => some c'
      | none => lookupForest p r

/-- A flat repository: every component with its child list cleared. -/
def forestOfList : List (Str × Component) → CompForest
  | [] => .nil
  | (p, c) :: r => .node p c .nil (forestOfList r)

/-- First entry of an association list with the given key. -/
def lookupPair (k : Str) : List (Str × Component) → Option (Str × Component)
  | [] => none
  | (k', c) :: r => if k' = k then some (k', c) else lookupPair k r

/-- String.prototype.replace with a one-character pattern: only the first
    occurrence is replaced (builders.ts line 566). -/
def replaceFirstChar (sep repl : Char) : Str → Str
  | [] => []
  | c :: r => if c = sep then repl :: r else c :: replaceFirstChar sep repl r

/-- Rewrite of one component's property list by finalizePathProperties
    (builders.ts lines 557-568): install-path properties with empty values are
    deleted, the others are relativized against the root path (relativeF is the
    external node:path posix/win32 relative) with the first separator replaced
    by '/'. -/
def finalizeProps (relativeF : Str → Str → Str) (rootPath : Str) (sep : Char)
    (props : List (Str × Str)) : List (Str × Str) :=
  props.filterMap fun kv =>
    if kv.1 = PropertyNames.PackageInstallPath then
      if kv.2 = [] then none
      else some (kv.1, replaceFirstChar sep '/' (relativeF rootPath kv.2))
    else some kv

/-- All nodes of a components forest as (path, component) pairs, pre-order. -/
def CompForest.allNodesCF : CompForest → List (Str × Component)
  | .nil => []
  | .node p c ch r => (p, c) :: (CompForest.allNodesCF ch ++ CompForest.allNodesCF r)

/-- Every node of the forest has an empty child list. -/
def CompForest.flatShape : CompForest → Prop
  | .nil => True
  | .node _ _ ch r => ch = .nil ∧ CompForest.flatShape r

/-- The reference-token ancestor chains of a forest: one triple per node whose
    whole ancestor chain has defined tokens - the ancestors' original tokens,
    the node's path, and its own original token. Nodes below a token-less
    component are not listed, mirroring the early return of
    adjustNestedBomRefs. -/
def refChains (acc : List Str) : CompForest → List (List Str × Str × Str)
  | .nil => []
  | .node p c ch r =>
    match c.bomRef with
    | none => refChains acc r
    | some v => (acc, p, v) :: (refChains (acc ++ [v]) ch ++ refChains acc r)

/-- The prefix that a chain of ancestor tokens contributes: each token followed
    by the pipe separator. -/
def pipeJoin : List Str → Str
  | [] => []
  | v :: rest => v ++ "|".data ++ pipeJoin rest

/-- The result slice of buildFromNpmLs that the modelled core produces: the
    root component (document subject) and the components forest. -/
structure BomModel where
  rootComponent : Component
  components : CompForest
  deriving DecidableEq

/-- BomBuilder.buildFromNpmLs (builders.ts lines 211-275) without the
    metadata/tools/serial-number bookkeeping (external document model): root
    materialization (line 218: a falsy makeComponent result - policy skip or
    broken - falls back to the dummy), the graph walk, install-path property
    finalization, trie assembly over all map keys, bom-ref adjustment (line 260,
    which runs in every mode) and the optional flattening (lines 263-270).
    Returns none when the raw root path is not a string: line 257 reads
    data.path[0] and the build throws. -/
def buildRoot (omitDT : List OmittableDependencyType) (cb : RawFields → Option BuiltComp)
    (metaComponentType : ComponentType) (data : RawNode) : Component :=
  match makeComponent omitDT cb data (some metaComponentType) with
  | .comp c => c
  | _ => dummyComponent metaComponentType "RootComponent".data

/-- The component map after the graph walk (allComponents at builders.ts
    line 222). -/
def buildStComps (omitDT : List OmittableDependencyType) (cb : RawFields → Option BuiltComp)
    (metaComponentType : ComponentType) (data : RawNode) : List (Option Str × Component) :=
  (gatherNode omitDT cb
    { comps := [(data.fields.path, buildRoot omitDT cb metaComponentType data)], depRefs := [] }
    data.fields.path data).comps

/-- The separator derived from the data (builders.ts lines 257 and 553). -/
def sepOf (rp : Str) : Char := if rp.head? = some '/' then '/' else '\\'

/-- One component after finalizePathProperties: only the property list changes. -/
def finalizeComp (relativeF : Str → Str → Str) (rootPath : Str) (sep : Char)
    (c : Component) : Component :=
  { c with properties := finalizeProps relativeF rootPath sep c.properties }

/-- The component map after finalizePathProperties rewrote the install-path
    properties (no-op when the root path is empty). -/
def buildComps2 (omitDT : List OmittableDependencyType) (cb : RawFields → Option BuiltComp)
    (relativeF : Str → Str → Str) (metaComponentType : ComponentType) (data : RawNode)
    (rp : Str) : List (Option Str × Component) :=
  if rp = [] then buildStComps omitDT cb metaComponentType data
  else
    (buildStComps omitDT cb metaComponentType data).map fun e =>
      (e.1, finalizeComp relativeF rp (sepOf rp) e.2)

/-- The map without the root entry, with the string keys (line 253). -/
def buildNonRoot (comps2 : List (Option Str × Component)) (rp : Str) :
    List (Str × Component) :=
  (comps2.filter fun e => e.1 ≠ some rp).filterMap fun e =>
    match e.1 with
    | some p => some (p, e.2)
    | none => none

def buildFromNpmLs (flattenComponents : Bool) (omitDT : List OmittableDependencyType)
    (cb : RawFields → Option BuiltComp) (relativeF : Str → Str → Str)
    (metaComponentType : ComponentType) (data : RawNode) : Option BomModel :=
  match data.fields.path with
  | none => none
  | some rp =>
    let comps2 := buildComps2 omitDT cb relativeF metaComponentType data rp
    let nonRoot := buildNonRoot comps2 rp
    let paths := comps2.filterMap fun e => e.1
    let forest1 := adjustF [] (nestComponents nonRoot (fromPaths paths (sepOf rp)))
    let components :=
      if flattenComponents then
        let tops := forest1.topEntries
        let rest := (nonRoot.filter fun e => e.1 ∉ tops.map Prod.fst).map fun e =>
          (e.1, match lookupForest e.1 forest1 with
            | some c => c
            | none => e.2)
        forestOfList (tops ++ rest)
      else forest1
    some
      { rootComponent :=
          match lookupComp (some rp) comps2 with
          | some c => c
          | none => buildRoot omitDT cb metaComponentType data
      , components := components }

/-! ### Concrete instantiations used by witnesses and counterexamples -/

/-- A component builder that always succeeds with fixed coordinates. -/
def cbSimple : RawFields → Option BuiltComp := fun _ =>
  some { name := "x".data, version := some "1".data, group := none }

/-- A concrete stand-in for the external posix path.relative on the inputs the
    examples use: drop the root path and the joining separator. -/
def relSimple : Str → Str → Str := fun r v => v.drop (r.length + 1)

/-- Raw tree for the flatten example: a root with one dependency a that has one
    nested dependency b. -/
def rawFlatten : RawNode :=
  .mk { path := some "/r".data, idField := some "r@1".data }
    (.cons "a".data
      (.mk { path := some "/r/node_modules/a".data, idField := some "a@1".data }
        (.cons "b".data
          (.mk { path := some "/r/node_modules/a/node_modules/b".data
               , idField := some "b@1".data } .nil)
          .nil))
      .nil)

/-- Raw tree with one and the same identity string at two different install
    paths that sit under component-free intermediate directories. -/
def rawDupRef : RawNode :=
  .mk { path := some "/r".data, idField := some "r@1".data }
    (.cons "a".data (.mk { path := some "/r/na/x".data, idField := some "x@1".data } .nil)
      (.cons "b".data (.mk { path := some "/r/nb/x".data, idField := some "x@1".data } .nil)
        .nil))

/-- A well-formed root record that is flagged dev. -/
def rawDevRoot : RawNode :=
  .mk { path := some "/r".data, dev := some true, idField := some "r@1".data } .nil

theorem gp_cat (t u : PTree) : (t.cat u).gp = t.gp ++ u.gp := by
  induction t with
  | nil => rfl
  | node k c r ihc ihr => simp [PTree.cat, PTree.gp, ihr]

theorem keys_cat (t u : PTree) : (t.cat u).keys = t.keys ++ u.keys := by
  induction t with
  | nil => rfl
  | node k c r ihc ihr => simp [PTree.cat, PTree.keys, ihr]

theorem cat_nil (t : PTree) : t.cat .nil = t := by
  induction t with
  | nil => rfl
  | node k c r ihc ihr => simp [PTree.cat, ihr]

theorem cat_assoc (t u v : PTree) : (t.cat u).cat v = t.cat (u.cat v) := by
  induction t with
  | nil => rfl
  | node k c r ihc ihr => simp [PTree.cat, ihr]

theorem setK_fresh (k : Str) (v : PTree) : ∀ t : PTree, k ∉ t.keys →
    PTree.setK k v t = t.cat (.node k v .nil) := by
  intro t
  induction t with
  | nil => intro _; rfl
  | node k' c r ihc ihr =>
    intro h
    simp only [PTree.keys, List.mem_cons] at h
    push_neg at h
    have hne : ¬(k' = k) := fun he => h.1 he.symm
    simp [PTree.setK, PTree.cat, hne, ihr h.2]

theorem insertAll_fresh (m : PTree) : ∀ t : PTree, m.keys.Nodup →
    (∀ s ∈ m.keys, s ∉ t.keys) → insertAll m t = t.cat m := by
  induction m with
  | nil => intro t _ _; simp [insertAll, cat_nil]
  | node s v r ihc ihr =>
    intro t hnd hf
    simp only [PTree.keys, List.nodup_cons] at hnd
    have hs : s ∉ t.keys := hf s (by simp [PTree.keys])
    have step : insertAll (.node s v r) t = insertAll r (t.cat (.node s v .nil)) := by
      simp only [insertAll, setK_fresh s v t hs]
    have hfr : ∀ x ∈ r.keys, x ∉ (t.cat (.node s v .nil)).keys := by
      intro x hx
      rw [keys_cat]
      simp only [List.mem_append, PTree.keys, List.mem_cons, List.not_mem_nil, or_false]
      push_neg
      refine ⟨hf x (by simp [PTree.keys, hx]), ?_⟩
      intro he
      exact hnd.1 (he ▸ hx)
    rw [step, ihr (t.cat (.node s v .nil)) hnd.2 hfr, cat_assoc]
    rfl

theorem split_at_key (a : Str) (t : PTree) (h : a ∈ t.keys) :
    ∃ (t₁ aT t₂ : PTree), t = PTree.cat t₁ (.node a aT t₂) ∧ a ∉ t₁.keys := by
  induction t with
  | nil => simp [PTree.keys] at h
  | node k c r ihc ihr =>
    by_cases hk : k = a
    · subst hk
      exact ⟨.nil, c, r, rfl, by simp [PTree.keys]⟩
    · simp only [PTree.keys, List.mem_cons] at h
      obtain ⟨t₁, aT, t₂, he, hn⟩ := ihr (h.resolve_left (fun he => hk he.symm))
      refine ⟨.node k c t₁, aT, t₂, by simp [PTree.cat, ← he], ?_⟩
      simp only [PTree.keys, List.mem_cons]
      push_neg
      exact ⟨fun he => hk he.symm, hn⟩

theorem movedOf_cat (a : Str) (t u : PTree) :
    movedOf a (t.cat u) = (movedOf a t).cat (movedOf a u) := by
  induction t with
  | nil => rfl
  | node b bT r ihc ihr =>
    simp only [PTree.cat, movedOf]
    split_ifs with hc
    · simp [PTree.cat, ihr]
    · exact ihr

theorem keepMoved_cat (a : Str) (t u : PTree) :
    keepMoved a (t.cat u) = (keepMoved a t).cat (keepMoved a u) := by
  induction t with
  | nil => rfl
  | node b bT r ihc ihr =>
    simp only [PTree.cat, keepMoved]
    split_ifs with hc
    · simp [PTree.cat, ihr]
    · exact ihr

theorem removeMoved_cat (a : Str) (t u : PTree) :
    removeMoved a (t.cat u) = (removeMoved a t).cat (removeMoved a u) := by
  induction t with
  | nil => rfl
  | node b bT r ihc ihr =>
    simp only [PTree.cat, removeMoved]
    split_ifs with hc
    · exact ihr
    · simp [PTree.cat, ihr]

theorem movedOf_node_self (a : Str) (aT t : PTree) :
    movedOf a (.node a aT t) = movedOf a t := by
  simp [movedOf]

theorem keepMoved_node_self (a : Str) (aT t : PTree) :
    keepMoved a (.node a aT t) = keepMoved a t := by
  simp [keepMoved]

theorem removeMoved_node_self (a : Str) (aT t : PTree) :
    removeMoved a (.node a aT t) = .node a aT (removeMoved a t) := by
  simp [removeMoved]

theorem keys_removeMoved_sub (a : Str) (t : PTree) :
    ∀ x ∈ (removeMoved a t).keys, x ∈ t.keys := by
  induction t with
  | nil => simp [removeMoved]
  | node b bT r ihc ihr =>
    intro x hx
    simp only [removeMoved] at hx
    by_cases hc : b ≠ a ∧ a.isPrefixOf b
    · rw [if_pos hc] at hx
      simp [PTree.keys, ihr x hx]
    · rw [if_neg hc] at hx
      simp only [PTree.keys, List.mem_cons] at hx
      rcases hx with rfl | hx
      · simp [PTree.keys]
      · simp [PTree.keys, ihr x hx]

theorem addInto_cat (a : Str) (m : PTree) (aT t₂ : PTree) : ∀ t₁ : PTree, a ∉ t₁.keys →
    addInto a m (PTree.cat t₁ (.node a aT t₂)) = PTree.cat t₁ (.node a (insertAll m aT) t₂) := by
  intro t₁
  induction t₁ with
  | nil => intro _; simp [PTree.cat, addInto]
  | node k c r ihc ihr =>
    intro h
    simp only [PTree.keys, List.mem_cons] at h
    push_neg at h
    have hne : ¬(k = a) := fun he => h.1 he.symm
    simp [PTree.cat, addInto, hne, ihr h.2]

theorem pfx_recover {a b : Str} (h : a <+: b) : a ++ b.drop a.length = b := by
  obtain ⟨tail, rfl⟩ := h
  simp

theorem keys_sublist_gp (t : PTree) : t.keys.Sublist t.gp := by
  induction t with
  | nil => simp [PTree.keys, PTree.gp]
  | node k c r ihc ihr =>
    simp only [PTree.keys, PTree.gp]
    exact List.Sublist.cons₂ k (ihr.trans (List.sublist_append_right _ _))

theorem nodup_gp_node {k : Str} {c r : PTree} (h : (PTree.gp (.node k c r)).Nodup) :
    (PTree.gp c).Nodup ∧ (PTree.gp r).Nodup := by
  simp only [PTree.gp, List.nodup_cons, List.nodup_append] at h
  exact ⟨h.2.1.of_map _, h.2.2.1⟩

theorem gp_keep_remove (a : Str) (t : PTree) :
    List.Perm t.gp ((keepMoved a t).gp ++ (removeMoved a t).gp) := by
  induction t with
  | nil => simp [PTree.gp, keepMoved, removeMoved]
  | node b bT r ihc ihr =>
    simp only [keepMoved, removeMoved]
    split_ifs with hc
    · simp only [PTree.gp]
      refine List.Perm.trans (List.Perm.cons b (List.Perm.append_left _ ihr)) ?_
      rw [List.perm_iff_count]
      intro x
      simp only [List.count_append, List.count_cons, List.cons_append]
      ring
    · simp only [PTree.gp]
      refine List.Perm.trans (List.Perm.cons b (List.Perm.append_left _ ihr)) ?_
      rw [List.perm_iff_count]
      intro x
      simp only [List.count_append, List.count_cons, List.cons_append]
      ring

theorem gp_movedOf_map (a : Str) (t : PTree) :
    ((movedOf a t).gp).map (a ++ ·) = (keepMoved a t).gp := by
  induction t with
  | nil => rfl
  | node b bT r ihc ihr =>
    simp only [movedOf, keepMoved]
    split_ifs with hc
    · have hab : a ++ b.drop a.length = b :=
        pfx_recover (List.isPrefixOf_iff_prefix.mp hc.2)
      simp only [PTree.gp, List.map_cons, List.map_append, List.map_map, Function.comp_def]
      rw [hab, ihr]
      have hmap : (PTree.gp bT).map (fun x => a ++ (b.drop a.length ++ x))
          = (PTree.gp bT).map (fun x => b ++ x) := by
        refine List.map_congr_left ?_
        intro x _
        rw [← List.append_assoc, hab]
      rw [hmap]
    · exact ihr

theorem keys_keepMoved_cond (a : Str) (t : PTree) :
    ∀ b ∈ (keepMoved a t).keys, b ≠ a ∧ a <+: b := by
  induction t with
  | nil => simp [keepMoved, PTree.keys]
  | node b bT r ihc ihr =>
    intro x hx
    simp only [keepMoved] at hx
    split_ifs at hx with hc
    · simp only [PTree.keys, List.mem_cons] at hx
      rcases hx with rfl | hx
      · exact ⟨hc.1, List.isPrefixOf_iff_prefix.mp hc.2⟩
      · exact ihr x hx
    · exact ihr x hx

theorem keys_keepMoved_sublist (a : Str) (t : PTree) :
    (keepMoved a t).keys.Sublist t.keys := by
  induction t with
  | nil => simp [keepMoved]
  | node b bT r ihc ihr =>
    simp only [keepMoved, PTree.keys]
    split_ifs with hc
    · exact List.Sublist.cons₂ b ihr
    · exact List.Sublist.cons b ihr

theorem keys_movedOf_eq (a : Str) (t : PTree) :
    (movedOf a t).keys = ((keepMoved a t).keys).map (fun b => b.drop a.length) := by
  induction t with
  | nil => rfl
  | node b bT r ihc ihr =>
    simp only [movedOf, keepMoved]
    split_ifs with hc
    · simp [PTree.keys, ihr]
    · exact ihr

theorem gp_moveUnder (a : Str) (t : PTree) (ha : a ∈ t.keys) (hnd : t.gp.Nodup) :
    List.Perm ((moveUnder a t).gp) t.gp := by
  obtain ⟨t₁, aT, t₂, rfl, hmem⟩ := split_at_key a t ha
  have hgp : (PTree.cat t₁ (.node a aT t₂)).gp
      = t₁.gp ++ (a :: ((PTree.gp aT).map (a ++ ·) ++ t₂.gp)) := by
    rw [gp_cat]
    rfl
  have hM : movedOf a (PTree.cat t₁ (.node a aT t₂)) = (movedOf a t₁).cat (movedOf a t₂) := by
    rw [movedOf_cat, movedOf_node_self]
  have hR : removeMoved a (PTree.cat t₁ (.node a aT t₂))
      = PTree.cat (removeMoved a t₁) (.node a aT (removeMoved a t₂)) := by
    rw [removeMoved_cat, removeMoved_node_self]
  have hmem' : a ∉ (removeMoved a t₁).keys := fun h => hmem (keys_removeMoved_sub a t₁ a h)
  have hmu : moveUnder a (PTree.cat t₁ (.node a aT t₂))
      = PTree.cat (removeMoved a t₁)
          (.node a (insertAll ((movedOf a t₁).cat (movedOf a t₂)) aT) (removeMoved a t₂)) := by
    rw [moveUnder, hM, hR, addInto_cat _ _ _ _ _ hmem']
  rw [hmu, hgp]
  -- key multiset of the moved block
  have hkeysM : ((movedOf a t₁).cat (movedOf a t₂)).keys
      = ((keepMoved a t₁).keys ++ (keepMoved a t₂).keys).map (fun b => b.drop a.length) := by
    rw [keys_cat, keys_movedOf_eq, keys_movedOf_eq, List.map_append]
  have hcond : ∀ b ∈ (keepMoved a t₁).keys ++ (keepMoved a t₂).keys, b ≠ a ∧ a <+: b := by
    intro b hb
    rcases List.mem_append.mp hb with hb | hb
    · exact keys_keepMoved_cond a t₁ b hb
    · exact keys_keepMoved_cond a t₂ b hb
  -- nodup of the original keys
  have hndk : (PTree.cat t₁ (.node a aT t₂)).keys.Nodup :=
    hnd.sublist (keys_sublist_gp _)
  have hndk' : (t₁.keys ++ (a :: t₂.keys)).Nodup := by
    rw [keys_cat] at hndk
    exact hndk
  have hndkk : ((keepMoved a t₁).keys ++ (keepMoved a t₂).keys).Nodup := by
    have h1 : (t₁.keys ++ t₂.keys).Nodup :=
      hndk'.sublist (List.Sublist.append_left (List.Sublist.cons a (List.Sublist.refl _)) _)
    exact h1.sublist ((keys_keepMoved_sublist a t₁).append (keys_keepMoved_sublist a t₂))
  have hndM : ((movedOf a t₁).cat (movedOf a t₂)).keys.Nodup := by
    rw [hkeysM]
    refine List.Nodup.map_on ?_ hndkk
    intro x hx y hy hxy
    have hax := (hcond x hx).2
    have hay := (hcond y hy).2
    calc x = a ++ x.drop a.length := (pfx_recover hax).symm
    _ = a ++ y.drop a.length := by rw [hxy]
    _ = y := pfx_recover hay
  -- nodup structure of the original gp
  rw [hgp] at hnd
  have hd1 : t₁.gp.Disjoint (a :: ((PTree.gp aT).map (a ++ ·) ++ t₂.gp)) :=
    (List.nodup_append.mp hnd).2.2
  have hnd2 : (a :: ((PTree.gp aT).map (a ++ ·) ++ t₂.gp)).Nodup :=
    (List.nodup_append.mp hnd).2.1
  have hdA2 : ((PTree.gp aT).map (a ++ ·)).Disjoint t₂.gp :=
    (List.nodup_append.mp (List.nodup_cons.mp hnd2).2).2.2
  -- freshness of the moved keys in the subtree of a
  have hfresh : ∀ s ∈ ((movedOf a t₁).cat (movedOf a t₂)).keys, s ∉ aT.keys := by
    intro s hs hsT
    rw [hkeysM] at hs
    obtain ⟨b, hb, rfl⟩ := List.mem_map.mp hs
    have hab : a ++ b.drop a.length = b := pfx_recover (hcond b hb).2
    have hbA : b ∈ (PTree.gp aT).map (a ++ ·) := by
      rw [← hab]
      exact List.mem_map_of_mem _ ((keys_sublist_gp aT).subset hsT)
    rcases List.mem_append.mp hb with hb1 | hb2
    · have hbg : b ∈ t₁.gp :=
        (keys_sublist_gp t₁).subset ((keys_keepMoved_sublist a t₁).subset hb1)
      exact hd1 hbg (by simp [hbA])
    · have hbg : b ∈ t₂.gp :=
        (keys_sublist_gp t₂).subset ((keys_keepMoved_sublist a t₂).subset hb2)
      exact hdA2 hbA hbg
  have hins : insertAll ((movedOf a t₁).cat (movedOf a t₂)) aT
      = aT.cat ((movedOf a t₁).cat (movedOf a t₂)) :=
    insertAll_fresh _ aT hndM hfresh
  rw [hins]
  -- expand everything and finish by counting
  have hexp : (PTree.cat (removeMoved a t₁)
      (.node a (aT.cat ((movedOf a t₁).cat (movedOf a t₂))) (removeMoved a t₂))).gp
      = (removeMoved a t₁).gp
        ++ (a :: (((PTree.gp aT).map (a ++ ·)
              ++ ((keepMoved a t₁).gp ++ (keepMoved a t₂).gp))
            ++ (removeMoved a t₂).gp)) := by
    rw [gp_cat]
    show _ ++ PTree.gp (.node a _ _) = _
    simp only [PTree.gp, gp_cat, List.map_append, gp_movedOf_map]
  rw [hexp]
  have hp1 := gp_keep_remove a t₁
  have hp2 := gp_keep_remove a t₂
  refine List.Perm.trans ?_
    (List.Perm.append hp1.symm (List.Perm.cons a (List.Perm.append_left _ hp2.symm)))
  rw [List.perm_iff_count]
  intro x
  simp only [List.count_append, List.count_cons]
  ring

theorem lookup_isSome_iff (a : Str) (t : PTree) : (PTree.lookup a t).isSome ↔ a ∈ t.keys := by
  induction t with
  | nil => simp [PTree.lookup, PTree.keys]
  | node k c r ihc ihr =>
    simp only [PTree.lookup, PTree.keys, List.mem_cons]
    by_cases hk : k = a
    · simp [hk]
    · rw [if_neg hk, ihr]
      constructor
      · exact Or.inr
      · rintro (rfl | h)
        · exact absurd rfl hk
        · exact h

theorem gp_outerLoop : ∀ (pending : List Str) (t : PTree), t.gp.Nodup →
    List.Perm ((outerLoop pending t).gp) t.gp := by
  intro pending
  induction pending with
  | nil => intro t _; exact List.Perm.refl _
  | cons a rest ih =>
    intro t hnd
    simp only [outerLoop]
    by_cases h : (PTree.lookup a t).isSome
    · rw [if_pos h]
      have hp := gp_moveUnder a t ((lookup_isSome_iff a t).mp h) hnd
      have hnd' : (moveUnder a t).gp.Nodup := hp.nodup_iff.mpr hnd
      exact (ih _ hnd').trans hp
    · rw [if_neg h]
      exact ih t hnd

theorem gp_nestPTFuel : ∀ (fuel : Nat) (t : PTree), t.gp.Nodup →
    List.Perm ((nestPTFuel fuel t).gp) t.gp := by
  intro fuel
  induction fuel with
  | zero => intro t _; exact List.Perm.refl _
  | succ fuel ih =>
    intro t hnd
    simp only [nestPTFuel]
    by_cases hp : PTree.plen t < 2
    · rw [if_pos hp]
    · rw [if_neg hp]
      have h1 := gp_outerLoop (PTree.keys t) t hnd
      have hnd1 : (outerLoop (PTree.keys t) t).gp.Nodup := h1.nodup_iff.mpr hnd
      have hmc : ∀ u : PTree, u.gp.Nodup →
          List.Perm ((mapChildrenWith (nestPTFuel fuel) u).gp) u.gp := by
        intro u
        induction u with
        | nil => intro _; exact List.Perm.refl _
        | node k c r ihc ihr =>
          intro hu
          obtain ⟨hcn, hrn⟩ := nodup_gp_node hu
          simp only [mapChildrenWith, PTree.gp]
          exact List.Perm.cons k (List.Perm.append ((ih c hcn).map _) (ihr hrn))
      exact (hmc _ hnd1).trans h1

theorem fkeys_renderPR : ∀ (t : PTree) (pref : Str),
    (renderPR pref t).fkeys = (t.gp).map (fun s => (pref ++ s).dropLast) := by
  intro t
  induction t with
  | nil => intro pref; rfl
  | node p c r ihc ihr =>
    intro pref
    simp only [renderPR, PTree.fkeys, PTree.gp, List.map_cons, List.map_append, List.map_map,
      Function.comp_def]
    rw [ihc, ihr]
    have hmap : (PTree.gp c).map (fun s => (pref ++ (p ++ s)).dropLast)
        = (PTree.gp c).map (fun s => ((pref ++ p) ++ s).dropLast) := by
      refine List.map_congr_left ?_
      intro x _
      rw [List.append_assoc]
    rw [hmap]

theorem gp_fromPathsInit (paths : List Str) (sep : Char) :
    (fromPathsInit paths sep).gp = paths.map (· ++ [sep]) := by
  induction paths with
  | nil => rfl
  | cons p r ih => simp [fromPathsInit, PTree.gp, ih]

theorem keyOkP_drop {sep : Char} {a b : Str} (hok : keyOkP sep b) (hne : b ≠ a)
    (hpre : a <+: b) : keyOkP sep (b.drop a.length) := by
  obtain ⟨tail, rfl⟩ := hpre
  have ht : tail ≠ [] := by
    rintro rfl
    exact hne (by simp)
  rw [List.drop_left]
  refine ⟨ht, ?_⟩
  have h2 := hok.2
  rwa [List.getLast?_append_of_ne_nil _ ht] at h2

theorem keyOkP_decomp {sep : Char} {k : Str} (h : keyOkP sep k) : k = k.dropLast ++ [sep] := by
  have h1 := List.dropLast_concat_getLast h.1
  have h2 : k.getLast? = some (k.getLast h.1) := List.getLast?_eq_getLast k h.1
  have h3 : k.getLast h.1 = sep := by
    have h4 := h.2
    rw [h2] at h4
    exact Option.some.inj h4
  rw [← h3]
  exact h1.symm

theorem keysOkR_cat {sep : Char} {t u : PTree} (ht : keysOkR sep t) (hu : keysOkR sep u) :
    keysOkR sep (t.cat u) := by
  induction t with
  | nil => exact hu
  | node k c r ihc ihr => exact ⟨ht.1, ht.2.1, ihr ht.2.2⟩

theorem keysOkR_movedOf {sep : Char} {a : Str} {t : PTree} (h : keysOkR sep t) :
    keysOkR sep (movedOf a t) := by
  induction t with
  | nil => trivial
  | node b bT r ihc ihr =>
    simp only [movedOf]
    split_ifs with hc
    · exact ⟨keyOkP_drop h.1 hc.1 (List.isPrefixOf_iff_prefix.mp hc.2), h.2.1, ihr h.2.2⟩
    · exact ihr h.2.2

theorem keysOkR_removeMoved {sep : Char} {a : Str} {t : PTree} (h : keysOkR sep t) :
    keysOkR sep (removeMoved a t) := by
  induction t with
  | nil => trivial
  | node b bT r ihc ihr =>
    simp only [removeMoved]
    split_ifs with hc
    · exact ihr h.2.2
    · exact ⟨h.1, h.2.1, ihr h.2.2⟩

theorem keysOkR_setK {sep : Char} {k : Str} {v : PTree} (hk : keyOkP sep k)
    (hv : keysOkR sep v) : ∀ t : PTree, keysOkR sep t → keysOkR sep (PTree.setK k v t) := by
  intro t
  induction t with
  | nil => intro _; exact ⟨hk, hv, trivial⟩
  | node k' c r ihc ihr =>
    intro ht
    simp only [PTree.setK]
    split_ifs with hc
    · exact ⟨ht.1, hv, ht.2.2⟩
    · exact ⟨ht.1, ht.2.1, ihr ht.2.2⟩

theorem keysOkR_insertAll {sep : Char} : ∀ m t : PTree, keysOkR sep m → keysOkR sep t →
    keysOkR sep (insertAll m t) := by
  intro m
  induction m with
  | nil => intro t _ ht; exact ht
  | node s v r ihc ihr =>
    intro t hm ht
    exact ihr _ hm.2.2 (keysOkR_setK hm.1 hm.2.1 t ht)

theorem keysOkR_addInto {sep : Char} {a : Str} {m : PTree} (hm : keysOkR sep m) :
    ∀ t : PTree, keysOkR sep t → keysOkR sep (addInto a m t) := by
  intro t
  induction t with
  | nil => intro _; trivial
  | node k c r ihc ihr =>
    intro ht
    simp only [addInto]
    split_ifs with hc
    · exact ⟨ht.1, keysOkR_insertAll m c hm ht.2.1, ht.2.2⟩
    · exact ⟨ht.1, ht.2.1, ihr ht.2.2⟩

theorem keysOkR_moveUnder {sep : Char} {a : Str} {t : PTree} (h : keysOkR sep t) :
    keysOkR sep (moveUnder a t) :=
  keysOkR_addInto (keysOkR_movedOf h) _ (keysOkR_removeMoved h)

theorem keysOkR_outerLoop {sep : Char} : ∀ (pending : List Str) (t : PTree),
    keysOkR sep t → keysOkR sep (outerLoop pending t) := by
  intro pending
  induction pending with
  | nil => intro t ht; exact ht
  | cons a rest ih =>
    intro t ht
    simp only [outerLoop]
    by_cases h : (PTree.lookup a t).isSome
    · rw [if_pos h]
      exact ih _ (keysOkR_moveUnder ht)
    · rw [if_neg h]
      exact ih t ht

theorem keysOkR_nestPTFuel {sep : Char} : ∀ (fuel : Nat) (t : PTree),
    keysOkR sep t → keysOkR sep (nestPTFuel fuel t) := by
  intro fuel
  induction fuel with
  | zero => intro t ht; exact ht
  | succ fuel ih =>
    intro t ht
    simp only [nestPTFuel]
    by_cases hp : PTree.plen t < 2
    · rw [if_pos hp]
      exact ht
    · rw [if_neg hp]
      have h1 : keysOkR sep (outerLoop (PTree.keys t) t) := keysOkR_outerLoop _ t ht
      have hmc : ∀ u : PTree, keysOkR sep u →
          keysOkR sep (mapChildrenWith (nestPTFuel fuel) u) := by
        intro u
        induction u with
        | nil => intro _; trivial
        | node k c r ihc ihr =>
          intro hu
          exact ⟨hu.1, ih c hu.2.1, ihr hu.2.2⟩
      exact hmc _ h1

theorem keysOkR_fromPathsInit (paths : List Str) (sep : Char) :
    keysOkR sep (fromPathsInit paths sep) := by
  induction paths with
  | nil => trivial
  | cons p r ih =>
    exact ⟨⟨by simp, List.getLast?_concat p⟩, trivial, ih⟩

theorem renderPR_keys_prefixed {sep : Char} : ∀ (t : PTree) (pref : Str), keysOkR sep t →
    ∀ K ∈ (renderPR pref t).fkeys, pref <+: K := by
  intro t
  induction t with
  | nil => intro pref _ K hK; simp [renderPR, PTree.fkeys] at hK
  | node p c r ihc ihr =>
    intro pref hok K hK
    simp only [renderPR, PTree.fkeys, List.mem_cons, List.mem_append] at hK
    rcases hK with rfl | hK | hK
    · rw [keyOkP_decomp hok.1, ← List.append_assoc, List.dropLast_concat]
      exact List.prefix_append _ _
    · exact (List.prefix_append pref p).trans (ihc (pref ++ p) hok.2.1 K hK)
    · exact ihr pref hok.2.2 K hK

theorem renderPR_nested_ext {sep : Char} : ∀ (t : PTree) (pref : Str), keysOkR sep t →
    ∀ e ∈ (renderPR pref t).allEntries, ∀ K' ∈ PTree.fkeys e.2, e.1 ++ [sep] <+: K' := by
  intro t
  induction t with
  | nil => intro pref _ e he; simp [renderPR, PTree.allEntries] at he
  | node p c r ihc ihr =>
    intro pref hok e he K' hK'
    simp only [renderPR, PTree.allEntries, List.mem_cons, List.mem_append] at he
    rcases he with rfl | he | he
    · have hd : (pref ++ p).dropLast = pref ++ p.dropLast := by
        conv_lhs => rw [keyOkP_decomp hok.1]
        rw [← List.append_assoc, List.dropLast_concat]
      have hkey : (pref ++ p).dropLast ++ [sep] = pref ++ p := by
        rw [hd, List.append_assoc, ← keyOkP_decomp hok.1]
      simp only [hkey]
      exact renderPR_keys_prefixed c (pref ++ p) hok.2.1 K' hK'
    · exact ihc (pref ++ p) hok.2.1 e he K' hK'
    · exact ihr pref hok.2.2 e he K' hK'

theorem fkeys_fromPaths_perm (paths : List Str) (sep : Char) (h : paths.Nodup) :
    List.Perm (PTree.fkeys (fromPaths paths sep)) paths := by
  unfold fromPaths nestPT
  rw [fkeys_renderPR]
  have hndgp : (fromPathsInit paths sep).gp.Nodup := by
    rw [gp_fromPathsInit]
    exact h.map (List.append_left_injective [sep])
  have hperm := (gp_nestPTFuel (PTree.psize (fromPathsInit paths sep)) _ hndgp).map
    (fun s => (([] : Str) ++ s).dropLast)
  refine hperm.trans ?_
  rw [gp_fromPathsInit, List.map_map]
  have hmapid : (paths.map ((fun s => (([] : Str) ++ s).dropLast) ∘ (· ++ [sep]))) = paths := by
    have hpt : ∀ p ∈ paths, ((fun s => (([] : Str) ++ s).dropLast) ∘ (· ++ [sep])) p = p := by
      intro p _
      show (([] : Str) ++ (p ++ [sep])).dropLast = p
      rw [List.nil_append, List.dropLast_concat]
    rw [List.map_congr_left hpt]
    simp
  rw [hmapid]

theorem nestedUnder_pfx {paths : List Str} {sep : Char} {p q : Str}
    (h : nestedUnder (fromPaths paths sep) p q) : (p ++ [sep]) <+: (q ++ [sep]) := by
  obtain ⟨e, he, hep, hq⟩ := h
  have hok : keysOkR sep
      (nestPTFuel (PTree.psize (fromPathsInit paths sep)) (fromPathsInit paths sep)) :=
    keysOkR_nestPTFuel _ _ (keysOkR_fromPathsInit paths sep)
  have he' : e ∈ (renderPR []
      (nestPTFuel (PTree.psize (fromPathsInit paths sep)) (fromPathsInit paths sep))).allEntries :=
    he
  have hext := renderPR_nested_ext _ [] hok e he' q hq
  rw [hep] at hext
  exact hext.trans (List.prefix_append q [sep])

theorem fromPaths_nested_ext (paths : List Str) (sep : Char) :
    ∀ e ∈ (fromPaths paths sep).allEntries, ∀ K' ∈ PTree.fkeys e.2, e.1 ++ [sep] <+: K' := by
  intro e he K' hK'
  have hok : keysOkR sep
      (nestPTFuel (PTree.psize (fromPathsInit paths sep)) (fromPathsInit paths sep)) :=
    keysOkR_nestPTFuel _ _ (keysOkR_fromPathsInit paths sep)
  exact renderPR_nested_ext _ [] hok e he K' hK'

/-- C3: on the install paths /proj, /proj/node_modules/a and
    /proj/node_modules/a/node_modules/b with separator '/', the trie built by
    TreeBuilder.fromPaths places the node for /proj/node_modules/a as a child of
    the node for /proj, the node for the deepest path as a child of the node for
    /proj/node_modules/a, and the two deeper nodes are never siblings; and for
    any two paths where neither, with the separator appended, is a string prefix
    of the other, neither node ends up nested under the other. -/
theorem trie_nesting_C3 :
    (childOf (fromPaths ["/proj".data, "/proj/node_modules/a".data,
          "/proj/node_modules/a/node_modules/b".data] '/')
        "/proj".data "/proj/node_modules/a".data ∧
      childOf (fromPaths ["/proj".data, "/proj/node_modules/a".data,
          "/proj/node_modules/a/node_modules/b".data] '/')
        "/proj/node_modules/a".data "/proj/node_modules/a/node_modules/b".data ∧
      ¬ siblings (fromPaths ["/proj".data, "/proj/node_modules/a".data,
          "/proj/node_modules/a/node_modules/b".data] '/')
        "/proj/node_modules/a".data "/proj/node_modules/a/node_modules/b".data) ∧
    (∀ (paths : List Str) (sep : Char) (p q : Str),
      ¬ (p ++ [sep]) <+: (q ++ [sep]) → ¬ (q ++ [sep]) <+: (p ++ [sep]) →
      ¬ nestedUnder (fromPaths paths sep) p q ∧ ¬ nestedUnder (fromPaths paths sep) q p) := by
  constructor
  · exact ⟨by decide, by decide, by decide⟩
  · intro paths sep p q h1 h2
    exact ⟨fun hn => h1 (nestedUnder_pfx hn), fun hn => h2 (nestedUnder_pfx hn)⟩

/-- Witness for C3 at two incomparable concrete paths. -/
theorem trie_nesting_C3_witness :
    ¬ nestedUnder (fromPaths ["/a".data, "/b".data] '/') "/a".data "/b".data ∧
    ¬ nestedUnder (fromPaths ["/a".data, "/b".data] '/') "/b".data "/a".data :=
  trie_nesting_C3.2 ["/a".data, "/b".data] '/' "/a".data "/b".data (by decide) (by decide)

/-- C9 counterexample: for the input paths /proj and /proj/node_modules/a the
    rendered trie keys the child node by the full root-relative path
    /proj/node_modules/a, not by the segment node_modules/a relative to its
    parent as the claim states; the segment appears nowhere as a key. -/
theorem render_keys_C9_counterexample :
    fromPaths ["/proj".data, "/proj/node_modules/a".data] '/' =
      PTree.node "/proj".data (PTree.node "/proj/node_modules/a".data .nil .nil) .nil ∧
    "node_modules/a".data ∉ (fromPaths ["/proj".data, "/proj/node_modules/a".data] '/').fkeys :=
  ⟨by decide, by decide⟩

/-- C9 amended: after the render pass each trie node's key is the full
    reconstructed path relative to the root — renderPR re-concatenates the
    prefix at each level and removes the synthetic trailing separator — so every
    key is one of the input paths and every key inside a node's subtree extends
    that node's key followed by the separator. -/
theorem render_keys_C9_amended (paths : List Str) (sep : Char) (h : paths.Nodup) :
    (∀ K ∈ (fromPaths paths sep).fkeys, K ∈ paths) ∧
    (∀ e ∈ (fromPaths paths sep).allEntries, ∀ K' ∈ PTree.fkeys e.2, e.1 ++ [sep] <+: K') :=
  ⟨fun K hK => (fkeys_fromPaths_perm paths sep h).subset hK,
    fromPaths_nested_ext paths sep⟩

/-- Witness for the amended C9 at the two concrete paths of the counterexample. -/
theorem render_keys_C9_witness :
    (∀ K ∈ (fromPaths ["/proj".data, "/proj/node_modules/a".data] '/').fkeys,
      K ∈ ["/proj".data, "/proj/node_modules/a".data]) ∧
    (∀ e ∈ (fromPaths ["/proj".data, "/proj/node_modules/a".data] '/').allEntries,
      ∀ K' ∈ PTree.fkeys e.2, e.1 ++ ['/'] <+: K') :=
  render_keys_C9_amended ["/proj".data, "/proj/node_modules/a".data] '/' (by decide)

theorem isBase64Char_val_isSome {c : Char} (h : isBase64Char c = true) :
    (base64CharVal c).isSome := by
  unfold isBase64Char at h
  unfold base64CharVal
  split_ifs with h1 h2 h3 h4 h5 <;> simp_all

theorem base64CharVal_eq_none : base64CharVal '=' = none := by decide

theorem base64Decode_blocks :
    ∀ (k : Nat) (l : Str), l.length ≤ k → (∀ c ∈ l, (base64CharVal c).isSome) →
      l.length % 4 = 2 →
      ∃ bs, base64Decode (l ++ ['=', '=']) = some bs ∧ bs.length = 3 * (l.length / 4) + 1 := by
  intro k
  induction k with
  | zero =>
    intro l hk _ hm
    omega
  | succ k ih =>
    intro l hk hall hm
    rcases l with _ | ⟨c1, _ | ⟨c2, _ | ⟨c3, _ | ⟨c4, rest⟩⟩⟩⟩
    · simp at hm
    · simp at hm
    · obtain ⟨v1, hv1⟩ := Option.isSome_iff_exists.mp (hall c1 (by simp))
      obtain ⟨v2, hv2⟩ := Option.isSome_iff_exists.mp (hall c2 (by simp))
      refine ⟨[v1 * 4 + v2 / 16], ?_, by simp⟩
      simp [base64Decode, hv1, hv2]
    · simp at hm
    ·
      obtain ⟨v1, hv1⟩ := Option.isSome_iff_exists.mp (hall c1 (by simp))
      obtain ⟨v2, hv2⟩ := Option.isSome_iff_exists.mp (hall c2 (by simp))
      obtain ⟨v3, hv3⟩ := Option.isSome_iff_exists.mp (hall c3 (by simp))
      obtain ⟨v4, hv4⟩ := Option.isSome_iff_exists.mp (hall c4 (by simp))
      have hc3 : c3 ≠ '=' := by
        intro he
        rw [he, base64CharVal_eq_none] at hv3
        exact Option.noConfusion hv3
      have hc4 : c4 ≠ '=' := by
        intro he
        rw [he, base64CharVal_eq_none] at hv4
        exact Option.noConfusion hv4
      have hrl : rest.length ≤ k := by simp at hk; omega
      have hrm : rest.length % 4 = 2 := by simp at hm ⊢; omega
      obtain ⟨bs, hbs, hlen⟩ := ih rest hrl (fun c hc => hall c (by simp [hc])) hrm
      refine ⟨(v1 * 4 + v2 / 16) :: (v2 % 16 * 16 + v3 / 4) :: (v3 % 4 * 64 + v4) :: bs, ?_, ?_⟩
      · simp only [List.cons_append, base64Decode, hv1, hv2, hv3, hv4, hc3, hc4, if_neg, hbs]
        simp [hc3, hc4, hbs]
      · simp at hlen ⊢
        omega

theorem hexDigit_mem (n : Nat) : hexDigit n ∈ hexDigitChars := by
  unfold hexDigit
  rcases lt_or_ge n hexDigitChars.length with h | h
  · rw [List.getD_eq_getElem _ _ h]
    exact List.getElem_mem h
  · rw [List.getD_eq_default _ _ h]
    decide

theorem bytesToHex_length (bs : List Nat) : (bytesToHex bs).length = 2 * bs.length := by
  induction bs with
  | nil => rfl
  | cons b r ih => simp [bytesToHex, ih]; omega

theorem bytesToHex_mem (bs : List Nat) : ∀ c ∈ bytesToHex bs, c ∈ hexDigitChars := by
  induction bs with
  | nil => simp [bytesToHex]
  | cons b r ih =>
    intro c hc
    simp only [bytesToHex, List.mem_cons] at hc
    rcases hc with rfl | rfl | hc
    · exact hexDigit_mem _
    · exact hexDigit_mem _
    · exact ih c hc

/-- C6: an integrity string sha512- followed by 86 base64 characters and two
    padding characters yields exactly one extracted hash, tagged SHA-512, whose
    value is the 128-character lowercase-hex re-encoding of the decoded base64
    payload; an integrity string matched by none of the four patterns yields no
    hash at all (and extraction is a total function, so no error is raised). -/
theorem integrity_extraction_C6 :
    (∀ p : Str, p.length = 86 → (∀ c ∈ p, isBase64Char c = true) →
      ∃ bs, base64Decode (p ++ ['=', '=']) = some bs ∧
        extractIntegrityHashes ("sha512-".data ++ p ++ ['=', '=']) =
          [(HashAlgorithm.sha512, bytesToHex bs)] ∧
        (bytesToHex bs).length = 128 ∧ ∀ c ∈ bytesToHex bs, c ∈ hexDigitChars) ∧
    (∀ s : Str, (∀ ar ∈ integrityRE, ar.2 s = none) → extractIntegrityHashes s = []) := by
  constructor
  · intro p hlen hb64
    obtain ⟨bs, hbs, hbl⟩ := base64Decode_blocks p.length p le_rfl
      (fun c hc => isBase64Char_val_isSome (hb64 c hc)) (by omega)
    refine ⟨bs, hbs, ?_, ?_, bytesToHex_mem bs⟩
    · have hcap : matchIntegrityRE "sha512-".data 86 2 ("sha512-".data ++ p ++ ['=', '=']) =
          some (p ++ ['=', '=']) := by
        unfold matchIntegrityRE
        rw [List.append_assoc]
        have hpre : ("sha512-".data).isPrefixOf ("sha512-".data ++ (p ++ ['=', '='])) = true :=
          List.isPrefixOf_iff_prefix.mpr ⟨p ++ ['=', '='], rfl⟩
        rw [if_pos hpre]
        simp only [List.drop_left]
        have htake : (p ++ ['=', '=']).take 86 = p := by
          rw [← hlen]
          exact List.take_left p ['=', '=']
        have hdrop : (p ++ ['=', '=']).drop 86 = ['=', '='] := by
          rw [← hlen]
          exact List.drop_left p ['=', '=']
        rw [if_pos]
        constructor
        · simp [hlen]
        · refine ⟨?_, ?_⟩
          · rw [htake]
            exact List.all_eq_true.mpr hb64
          · rw [hdrop]
            decide
      show integrityLoop integrityRE ("sha512-".data ++ p ++ ['=', '=']) = _
      simp only [integrityRE, integrityLoop, hcap, hbs, Option.getD_some]
    · rw [bytesToHex_length, hbl, hlen]
  · intro s hnone
    show integrityLoop integrityRE s = []
    have hgen : ∀ res : List (HashAlgorithm × (Str → Option Str)),
        (∀ ar ∈ res, ar.2 s = none) → integrityLoop res s = [] := by
      intro res
      induction res with
      | nil => intro _; rfl
      | cons ar rest ih =>
        intro hall
        obtain ⟨alg, re⟩ := ar
        have hre : re s = none := hall (alg, re) (by simp)
        simp only [integrityLoop, hre]
        exact ih fun x hx => hall x (by simp [hx])
    exact hgen integrityRE hnone

/-- Witness for C6 at the first sha512 example from the source comment block
    and at a string that matches none of the four patterns. -/
theorem integrity_extraction_C6_witness :
    (∃ bs,
      base64Decode
          ("zvj65TkFeIt3i6aj5bIvJDzjjQQGs4o/sNoezg1F1kYap9Nu2jcUdpwzRSJTHMMzG0H7bZkn4rNQpImhuxWX2A".data
            ++ ['=', '=']) = some bs ∧
      extractIntegrityHashes
          ("sha512-".data ++
            "zvj65TkFeIt3i6aj5bIvJDzjjQQGs4o/sNoezg1F1kYap9Nu2jcUdpwzRSJTHMMzG0H7bZkn4rNQpImhuxWX2A".data
            ++ ['=', '=']) = [(HashAlgorithm.sha512, bytesToHex bs)] ∧
      (bytesToHex bs).length = 128 ∧ ∀ c ∈ bytesToHex bs, c ∈ hexDigitChars) ∧
    extractIntegrityHashes "md5-deadbeef".data = [] :=
  ⟨integrity_extraction_C6.1
      "zvj65TkFeIt3i6aj5bIvJDzjjQQGs4o/sNoezg1F1kYap9Nu2jcUdpwzRSJTHMMzG0H7bZkn4rNQpImhuxWX2A".data
      (by decide) (by decide),
    integrity_extraction_C6.2 "md5-deadbeef".data (by decide)⟩

theorem lookupComp_append_some {k : Option Str} {c : Component}
    {l : List (Option Str × Component)} (l2 : List (Option Str × Component))
    (h : lookupComp k l = some c) : lookupComp k (l ++ l2) = some c := by
  induction l with
  | nil => simp [lookupComp] at h
  | cons e r ih =>
    obtain ⟨k', c'⟩ := e
    simp only [lookupComp, List.cons_append] at h ⊢
    split_ifs at h ⊢ with hk
    · exact h
    · exact ih h

theorem lookupComp_none_iff (k : Option Str) (l : List (Option Str × Component)) :
    lookupComp k l = none ↔ k ∉ l.map Prod.fst := by
  induction l with
  | nil => simp [lookupComp]
  | cons e r ih =>
    obtain ⟨k', c'⟩ := e
    simp only [lookupComp, List.map_cons, List.mem_cons]
    split_ifs with hk
    · subst hk
      constructor
      · intro h
        exact h.elim
      · intro h
        exact absurd (Or.inl rfl) h
    · rw [ih]
      constructor
      · intro h
        push_neg
        exact ⟨fun he => hk he.symm, h⟩
      · intro h
        push_neg at h
        exact h.2

theorem lookupComp_map_snd (k : Option Str) (g : Component → Component)
    (l : List (Option Str × Component)) :
    lookupComp k (l.map fun e => (e.1, g e.2)) = (lookupComp k l).map g := by
  induction l with
  | nil => rfl
  | cons e r ih =>
    obtain ⟨k', c'⟩ := e
    simp only [lookupComp, List.map_cons]
    split_ifs with hk
    · rfl
    · exact ih

theorem gatherDeps_pres :
    ∀ (n : Nat) (omitDT : List OmittableDependencyType) (cb : RawFields → Option BuiltComp)
      (ds : RawDeps) (st : GState) (owner k : Option Str) (c : Component),
      RawDeps.dsize ds ≤ n → lookupComp k st.comps = some c →
      lookupComp k (gatherDeps omitDT cb st owner ds).comps = some c := by
  intro n
  induction n with
  | zero =>
    intro omitDT cb ds st owner k c hn h
    cases ds with
    | nil => exact h
    | cons nm child rest => simp [RawDeps.dsize] at hn
    | consInvalid nm rest => simp [RawDeps.dsize] at hn
  | succ n ih =>
    intro omitDT cb ds st owner k c hn h
    cases ds with
    | nil => exact h
    | consInvalid nm rest =>
      simp only [gatherDeps]
      refine ih _ _ rest st owner k c ?_ h
      simp only [RawDeps.dsize] at hn
      omega
    | cons nm child rest =>
      obtain ⟨cf, cds⟩ := child
      have hsz1 : RawDeps.dsize cds ≤ n := by
        simp only [RawDeps.dsize, RawNode.nsize] at hn
        omega
      have hsz2 : RawDeps.dsize rest ≤ n := by
        simp only [RawDeps.dsize, RawNode.nsize] at hn
        omega
      simp only [gatherDeps, RawNode.fields]
      split
      · exact ih omitDT cb rest st owner k c hsz2 h
      · split
        · simp only [gatherNode]
          exact ih omitDT cb rest _ owner k c hsz2 (ih omitDT cb cds _ _ k c hsz1 h)
        · split
          · exact ih omitDT cb rest st owner k c hsz2 h
          · simp only [gatherNode]
            exact ih omitDT cb rest _ owner k c hsz2
              (ih omitDT cb cds _ _ k c hsz1 (lookupComp_append_some _ h))
          · simp only [gatherNode]
            exact ih omitDT cb rest _ owner k c hsz2
              (ih omitDT cb cds _ _ k c hsz1 (lookupComp_append_some _ h))

theorem gatherDeps_nodup :
    ∀ (n : Nat) (omitDT : List OmittableDependencyType) (cb : RawFields → Option BuiltComp)
      (ds : RawDeps) (st : GState) (owner : Option Str),
      RawDeps.dsize ds ≤ n → (st.comps.map Prod.fst).Nodup →
      ((gatherDeps omitDT cb st owner ds).comps.map Prod.fst).Nodup := by
  intro n
  induction n with
  | zero =>
    intro omitDT cb ds st owner hn h
    cases ds with
    | nil => exact h
    | cons nm child rest => simp [RawDeps.dsize] at hn
    | consInvalid nm rest => simp [RawDeps.dsize] at hn
  | succ n ih =>
    intro omitDT cb ds st owner hn h
    cases ds with
    | nil => exact h
    | consInvalid nm rest =>
      simp only [gatherDeps]
      refine ih _ _ rest st owner ?_ h
      simp only [RawDeps.dsize] at hn
      omega
    | cons nm child rest =>
      obtain ⟨cf, cds⟩ := child
      have hsz1 : RawDeps.dsize cds ≤ n := by
        simp only [RawDeps.dsize, RawNode.nsize] at hn
        omega
      have hsz2 : RawDeps.dsize rest ≤ n := by
        simp only [RawDeps.dsize, RawNode.nsize] at hn
        omega
      simp only [gatherDeps, RawNode.fields]
      split
      · exact ih omitDT cb rest st owner hsz2 h
      · next p hpath =>
        split
        · simp only [gatherNode]
          exact ih omitDT cb rest _ owner hsz2 (ih omitDT cb cds _ _ hsz1 h)
        · next hlook =>
          have hfresh : some p ∉ st.comps.map Prod.fst := (lookupComp_none_iff _ _).mp hlook
          have happ : ∀ dep : Component,
              ((st.comps ++ [(some p, dep)]).map Prod.fst).Nodup := by
            intro dep
            rw [List.map_append]
            refine List.nodup_append.mpr ⟨h, by simp, ?_⟩
            intro x hx hx2
            simp only [List.map_cons, List.map_nil, List.mem_cons, List.not_mem_nil,
              or_false] at hx2
            subst hx2
            exact hfresh hx
          split
          · exact ih omitDT cb rest st owner hsz2 h
          · simp only [gatherNode]
            exact ih omitDT cb rest _ owner hsz2 (ih omitDT cb cds _ _ hsz1 (happ _))
          · simp only [gatherNode]
            exact ih omitDT cb rest _ owner hsz2 (ih omitDT cb cds _ _ hsz1 (happ _))

theorem gatherDeps_reuse_eq (omitDT : List OmittableDependencyType)
    (cb : RawFields → Option BuiltComp) (st : GState) (owner : Option Str) (nm : Str)
    (child : RawNode) (rest : RawDeps) (p : Str) (c : Component)
    (hpath : (RawNode.fields child).path = some p)
    (hlook : lookupComp (some p) st.comps = some c) :
    gatherDeps omitDT cb st owner (.cons nm child rest)
      = gatherDeps omitDT cb
          (gatherNode omitDT cb (GState.addEdge st owner p) (some p) child) owner rest := by
  obtain ⟨cf, cds⟩ := child
  simp only [RawNode.fields] at hpath
  simp only [gatherDeps, RawNode.fields, hpath, hlook, gatherNode]

theorem makeComponent_comp_not_dummy {omitDT : List OmittableDependencyType}
    {cb : RawFields → Option BuiltComp} {data : RawNode} {type : Option ComponentType}
    {c : Component} (h : makeComponent omitDT cb data type = .comp c) : c.dummy = false := by
  simp only [makeComponent] at h
  split at h
  · exact MkResult.noConfusion h
  · split at h
    · exact MkResult.noConfusion h
    · split at h
      · exact MkResult.noConfusion h
      · split at h
        · exact MkResult.noConfusion h
        · injection h with h2
          rw [← h2]

/-- C1: the graph walk de-duplicates components by install path. The key list
    of the component map never acquires a duplicate (each path keys exactly one
    component object), an entry once present is never replaced - the first
    materialization wins, so a child whose path is already known is reused
    without re-normalizing the child record - and processing such a child is
    exactly: record the dependency edge from the current parent to the existing
    component, then descend into the child's dependencies. -/
theorem gather_dedup_C1 :
    (∀ (omitDT : List OmittableDependencyType) (cb : RawFields → Option BuiltComp)
        (st : GState) (owner : Option Str) (ds : RawDeps),
      (st.comps.map Prod.fst).Nodup →
      ((gatherDeps omitDT cb st owner ds).comps.map Prod.fst).Nodup) ∧
    (∀ (omitDT : List OmittableDependencyType) (cb : RawFields → Option BuiltComp)
        (st : GState) (owner k : Option Str) (ds : RawDeps) (c : Component),
      lookupComp k st.comps = some c →
      lookupComp k (gatherDeps omitDT cb st owner ds).comps = some c) ∧
    (∀ (omitDT : List OmittableDependencyType) (cb : RawFields → Option BuiltComp)
        (st : GState) (owner : Option Str) (nm : Str) (child : RawNode) (rest : RawDeps)
        (p : Str) (c : Component),
      (RawNode.fields child).path = some p →
      lookupComp (some p) st.comps = some c →
      gatherDeps omitDT cb st owner (.cons nm child rest)
        = gatherDeps omitDT cb
            (gatherNode omitDT cb (GState.addEdge st owner p) (some p) child) owner rest) :=
  ⟨fun omitDT cb st owner ds h =>
      gatherDeps_nodup (RawDeps.dsize ds) omitDT cb ds st owner le_rfl h,
   fun omitDT cb st owner k ds c h =>
      gatherDeps_pres (RawDeps.dsize ds) omitDT cb ds st owner k c le_rfl h,
   gatherDeps_reuse_eq⟩

/-- Witness for C1: a map already holding the path /r keeps its key list
    duplicate-free and its entry intact across a walk that references /r again,
    and the redundant child entry reduces to edge-recording plus descent. -/
theorem gather_dedup_C1_witness :
    (((gatherDeps [] cbSimple
        { comps := [(some "/r".data, dummyComponent .library "R".data)], depRefs := [] }
        (some "/r".data)
        (.cons "a".data (.mk { path := some "/r".data } .nil) .nil)).comps.map
        Prod.fst).Nodup) ∧
    lookupComp (some "/r".data)
      (gatherDeps [] cbSimple
        { comps := [(some "/r".data, dummyComponent .library "R".data)], depRefs := [] }
        (some "/r".data)
        (.cons "a".data (.mk { path := some "/r".data } .nil) .nil)).comps
      = some (dummyComponent .library "R".data) ∧
    gatherDeps [] cbSimple
        { comps := [(some "/r".data, dummyComponent .library "R".data)], depRefs := [] }
        (some "/r".data)
        (.cons "a".data (.mk { path := some "/r".data } .nil) .nil)
      = gatherDeps [] cbSimple
          (gatherNode [] cbSimple
            (GState.addEdge
              { comps := [(some "/r".data, dummyComponent .library "R".data)], depRefs := [] }
              (some "/r".data) "/r".data)
            (some "/r".data) (.mk { path := some "/r".data } .nil))
          (some "/r".data) .nil :=
  ⟨gather_dedup_C1.1 [] cbSimple _ (some "/r".data) _ (by decide),
   gather_dedup_C1.2.1 [] cbSimple _ (some "/r".data) (some "/r".data) _ _ rfl,
   gather_dedup_C1.2.2 [] cbSimple _ (some "/r".data) "a".data _ .nil "/r".data
     (dummyComponent .library "R".data) rfl rfl⟩

/-- C7: a child entry whose normalization returns the policy-skip signal
    contributes nothing at all: processing it leaves the walk state untouched -
    no dependency edge is recorded for the current parent, no component is added
    for the child's path, and the walk does not descend into the child's own
    dependencies. The statement quantifies over every state, so the decision is
    re-evaluated independently on every edge that references the same path;
    nothing global is memoized. -/
theorem skip_edge_C7 (omitDT : List OmittableDependencyType)
    (cb : RawFields → Option BuiltComp) (st : GState) (owner : Option Str) (nm : Str)
    (child : RawNode) (rest : RawDeps) (p : Str)
    (hpath : (RawNode.fields child).path = some p)
    (hfresh : lookupComp (some p) st.comps = none)
    (hskip : makeComponent omitDT cb child none = .skip) :
    gatherDeps omitDT cb st owner (.cons nm child rest)
      = gatherDeps omitDT cb st owner rest := by
  obtain ⟨cf, cds⟩ := child
  simp only [RawNode.fields] at hpath
  simp only [gatherDeps, RawNode.fields, hpath, hfresh, hskip]

/-- Witness for C7: a dev-flagged child under omission set {dev} is skipped and
    the walk state is unchanged. -/
theorem skip_edge_C7_witness :
    gatherDeps [.dev] cbSimple
        { comps := [(some "/r".data, dummyComponent .library "R".data)], depRefs := [] }
        (some "/r".data)
        (.cons "d".data (.mk { path := some "/r/d".data, dev := some true } .nil) .nil)
      = gatherDeps [.dev] cbSimple
          { comps := [(some "/r".data, dummyComponent .library "R".data)], depRefs := [] }
          (some "/r".data) .nil :=
  skip_edge_C7 [.dev] cbSimple _ (some "/r".data) "d".data _ .nil "/r/d".data rfl rfl rfl

/-- C2 counterexample: a raw record with devOptional = true that is also
    flagged optional is skipped by makeComponent under the omission set
    consisting of optional alone, although dev and optional are not both in the
    set - so, read over all records with devOptional = true, the exactly-when
    claim fails. -/
theorem devOptional_C2_counterexample :
    makeComponent [.optional] cbSimple
        (.mk { devOptional := some true, optional := some true } .nil) none = .skip ∧
    ¬ (OmittableDependencyType.dev ∈ [OmittableDependencyType.optional] ∧
        OmittableDependencyType.optional ∈ [OmittableDependencyType.optional]) :=
  ⟨rfl, by decide⟩

/-- C2 amended: for every raw record whose effective optional and dev flags are
    false and whose devOptional flag is true - the record is flagged devOptional
    and not also optional or dev - makeComponent returns the skip signal exactly
    when both dev and optional are in the omission set; with only one of the two
    omitted the record is kept. -/
theorem devOptional_C2_amended (omitDT : List OmittableDependencyType)
    (cb : RawFields → Option BuiltComp) (f : RawFields) (ds : RawDeps)
    (hdo : f.devOptional = some true)
    (hopt : effFlag f.optional f.legacyOptional = false)
    (hdev : effFlag f.dev f.legacyDevelopment = false) :
    makeComponent omitDT cb (.mk f ds) none = .skip ↔
      (OmittableDependencyType.dev ∈ omitDT ∧ OmittableDependencyType.optional ∈ omitDT) := by
  constructor
  · intro h
    simp only [makeComponent, RawNode.fields] at h
    split at h
    · next hcond =>
      rw [hopt] at hcond
      exact absurd hcond.1 (by simp)
    · split at h
      · next hcond =>
        rw [hdev] at hcond
        exact absurd hcond.1 (by simp)
      · split at h
        · next hcond =>
          exact ⟨List.elem_iff.mp hcond.2.1, List.elem_iff.mp hcond.2.2⟩
        · split at h
          · exact MkResult.noConfusion h
          · exact MkResult.noConfusion h
  · rintro ⟨h1, h2⟩
    simp only [makeComponent, RawNode.fields]
    rw [if_neg, if_neg, if_pos]
    · exact ⟨by rw [hdo]; rfl, List.elem_iff.mpr h1, List.elem_iff.mpr h2⟩
    · intro hc
      rw [hdev] at hc
      exact absurd hc.1 (by simp)
    · intro hc
      rw [hopt] at hc
      exact absurd hc.1 (by simp)

/-- Witness for the amended C2: a record flagged only devOptional is skipped
    under the omission set containing both dev and optional, and kept under
    each of the two singleton omission sets. -/
theorem devOptional_C2_witness :
    makeComponent [.dev, .optional] cbSimple
        (.mk { devOptional := some true } .nil) none = .skip ∧
    ¬ makeComponent [.dev] cbSimple
        (.mk { devOptional := some true } .nil) none = .skip ∧
    ¬ makeComponent [.optional] cbSimple
        (.mk { devOptional := some true } .nil) none = .skip :=
  ⟨(devOptional_C2_amended [.dev, .optional] cbSimple
      { devOptional := some true } .nil rfl rfl rfl).mpr ⟨by decide, by decide⟩,
   fun h => by
      have h2 := (devOptional_C2_amended [.dev] cbSimple
        { devOptional := some true } .nil rfl rfl rfl).mp h
      exact absurd h2.2 (by decide),
   fun h => by
      have h2 := (devOptional_C2_amended [.optional] cbSimple
        { devOptional := some true } .nil rfl rfl rfl).mp h
      exact absurd h2.1 (by decide)⟩

/-- C8 counterexample: a root record that the component builder can normalize
    (cb succeeds on its fields) but that is flagged dev is policy-skipped under
    omission set {dev}, and buildFromNpmLs then substitutes the RootComponent
    dummy - so the placeholder is not reserved to roots that are too malformed
    to normalize. -/
theorem root_placeholder_C8_counterexample :
    (cbSimple (RawNode.fields rawDevRoot)).isSome = true ∧
    makeComponent [.dev] cbSimple rawDevRoot (some .application) = .skip ∧
    (buildFromNpmLs false [.dev] cbSimple relSimple .application rawDevRoot).map
        (fun b => (b.rootComponent.dummy, b.rootComponent.name))
      = some (true, "DummyComponent.RootComponent".data) :=
  ⟨rfl, rfl, rfl⟩

/-- C8 amended: for every raw tree whose root path is a string, buildFromNpmLs
    always materializes a root component, and the root is the RootComponent
    dummy placeholder exactly when makeComponent returns the policy-skip signal
    or the broken signal on the raw root record: a policy-omitted root is not
    special-cased and also receives the placeholder, while a normalizable,
    non-omitted root yields the built component. -/
theorem root_placeholder_C8_amended (flatten : Bool) (omitDT : List OmittableDependencyType)
    (cb : RawFields → Option BuiltComp) (relativeF : Str → Str → Str)
    (mt : ComponentType) (data : RawNode) (rp : Str)
    (hp : (RawNode.fields data).path = some rp) :
    ∃ bom, buildFromNpmLs flatten omitDT cb relativeF mt data = some bom ∧
      (bom.rootComponent.dummy = true ↔
        (makeComponent omitDT cb data (some mt) = .skip ∨
          makeComponent omitDT cb data (some mt) = .broken)) := by
  have hroot0 : lookupComp (some rp) (buildStComps omitDT cb mt data)
      = some (buildRoot omitDT cb mt data) := by
    obtain ⟨df, dds⟩ := data
    simp only [RawNode.fields] at hp
    simp only [buildStComps, gatherNode, RawNode.fields, hp]
    refine gatherDeps_pres (RawDeps.dsize dds) omitDT cb dds _ _ _ _ le_rfl ?_
    simp [lookupComp]
  have hroot2 : ∃ rc, lookupComp (some rp) (buildComps2 omitDT cb relativeF mt data rp)
      = some rc ∧ rc.dummy = (buildRoot omitDT cb mt data).dummy := by
    unfold buildComps2
    by_cases hrp : rp = []
    · rw [if_pos hrp, hroot0]
      exact ⟨_, rfl, rfl⟩
    · rw [if_neg hrp, lookupComp_map_snd (some rp) (finalizeComp relativeF rp (sepOf rp)),
        hroot0]
      exact ⟨_, rfl, rfl⟩
  obtain ⟨rc, hrc, hrcd⟩ := hroot2
  cases hb : buildFromNpmLs flatten omitDT cb relativeF mt data with
  | none =>
    simp only [buildFromNpmLs, hp] at hb
    exact Option.noConfusion hb
  | some bom =>
    refine ⟨bom, rfl, ?_⟩
    simp only [buildFromNpmLs, hp] at hb
    injection hb with hb2
    have hroot : bom.rootComponent = rc := by
      rw [← hb2]
      simp only [hrc]
    rw [hroot, hrcd]
    unfold buildRoot
    cases hmk : makeComponent omitDT cb data (some mt) with
    | skip => simp [dummyComponent]
    | broken => simp [dummyComponent]
    | comp c =>
      rw [makeComponent_comp_not_dummy hmk]
      constructor
      · intro h
        exact absurd h (by simp)
      · rintro (h | h) <;> exact MkResult.noConfusion h

/-- Witness for the amended C8 at the dev-flagged root: the build succeeds and
    the root is the placeholder because makeComponent policy-skips the root. -/
theorem root_placeholder_C8_witness :
    ∃ bom, buildFromNpmLs false [.dev] cbSimple relSimple .application rawDevRoot = some bom ∧
      (bom.rootComponent.dummy = true ↔
        (makeComponent [.dev] cbSimple rawDevRoot (some .application) = .skip ∨
          makeComponent [.dev] cbSimple rawDevRoot (some .application) = .broken)) :=
  root_placeholder_C8_amended false [.dev] cbSimple relSimple .application rawDevRoot
    "/r".data rfl

theorem refChains_acc : ∀ (f : CompForest) (acc : List Str),
    refChains acc f = (refChains [] f).map (fun t => (acc ++ t.1, t.2)) := by
  intro f
  induction f with
  | nil => intro acc; rfl
  | node p c ch r ihch ihr =>
    intro acc
    simp only [refChains]
    cases hc : c.bomRef with
    | none => exact ihr acc
    | some v =>
      simp only [List.map_cons]
      rw [ihr acc, ihch (acc ++ [v])]
      simp only [List.nil_append, List.append_nil]
      rw [ihch [v], List.map_append, List.map_map]
      congr 1
      congr 1
      refine List.map_congr_left ?_
      intro t _
      simp [Function.comp, List.append_assoc]

theorem refChains_adjustF : ∀ (f : CompForest) (pref : Str) (acc : List Str),
    (refChains acc (adjustF pref f)).map (fun t => (t.2.1, t.2.2))
      = (refChains [] f).map (fun t => (t.2.1, pref ++ (pipeJoin t.1 ++ t.2.2))) := by
  intro f
  induction f with
  | nil => intro pref acc; rfl
  | node p c ch r ihch ihr =>
    intro pref acc
    cases hc : c.bomRef with
    | none =>
      simp only [adjustF, hc, refChains]
      exact ihr pref acc
    | some v =>
      simp only [adjustF, hc, refChains, List.map_cons, List.map_append]
      rw [ihr pref acc, ihch (pref ++ v ++ "|".data) (acc ++ [pref ++ v])]
      simp only [List.nil_append, List.append_nil]
      rw [refChains_acc ch [v], List.map_map]
      have hmap : ((refChains [] ch).map ((fun t => (t.2.1, pref ++ (pipeJoin t.1 ++ t.2.2)))
            ∘ (fun t => ([v] ++ t.1, t.2))))
          = (refChains [] ch).map
              (fun t => (t.2.1, pref ++ v ++ "|".data ++ (pipeJoin t.1 ++ t.2.2))) := by
        refine List.map_congr_left ?_
        intro t _
        show (t.2.1, pref ++ (pipeJoin ([v] ++ t.1) ++ t.2.2))
          = (t.2.1, pref ++ v ++ "|".data ++ (pipeJoin t.1 ++ t.2.2))
        have hpj : pipeJoin ([v] ++ t.1) = v ++ "|".data ++ pipeJoin t.1 := by
          show pipeJoin (v :: t.1) = v ++ "|".data ++ pipeJoin t.1
          simp [pipeJoin]
        rw [hpj]
        simp [List.append_assoc]
      rw [hmap]
      simp [pipeJoin]

/-- C5 counterexample: two components with identical name and version (built
    from records with one and the same identity string) at two different
    install paths that sit behind component-free intermediate directories are
    both spliced to the top level of the forest, receive the empty ancestor
    prefix in adjustNestedBomRefs, and keep identical reference tokens - so the
    claimed distinctness does not hold for every input. -/
theorem bomref_unique_C5_counterexample :
    (match buildFromNpmLs false [] cbSimple relSimple .application rawDupRef with
      | some bom =>
        ((lookupForest "/r/na/x".data bom.components).map fun c => (c.name, c.version, c.bomRef),
         (lookupForest "/r/nb/x".data bom.components).map fun c => (c.name, c.version, c.bomRef))
      | none => (none, none))
    = (some ("x".data, some "1".data, some "x@1".data),
       some ("x".data, some "1".data, some "x@1".data)) ∧
    "/r/na/x".data ≠ "/r/nb/x".data :=
  ⟨rfl, by decide⟩

/-- C5 amended: after adjustNestedBomRefs every component whose ancestor chain
    has defined tokens carries the token pref ++ ancestor tokens joined by the
    pipe character ++ its own original token, so two components with equal
    original tokens receive distinct adjusted tokens whenever their pipe-joined
    ancestor prefixes differ as strings (in particular when they are nested
    under components with different tokens); distinctness is not guaranteed when
    the prefixes coincide, for example for two top-level components. -/
theorem bomref_adjust_C5_amended :
    (∀ (f : CompForest) (pref : Str) (acc : List Str),
      (refChains acc (adjustF pref f)).map (fun t => (t.2.1, t.2.2))
        = (refChains [] f).map (fun t => (t.2.1, pref ++ (pipeJoin t.1 ++ t.2.2)))) ∧
    (∀ (pref v : Str) (a₁ a₂ : List Str), pipeJoin a₁ ≠ pipeJoin a₂ →
      pref ++ (pipeJoin a₁ ++ v) ≠ pref ++ (pipeJoin a₂ ++ v)) := by
  refine ⟨refChains_adjustF, ?_⟩
  intro pref v a₁ a₂ hne heq
  exact hne (List.append_cancel_right (List.append_cancel_left heq))

/-- Witness for the amended C5 at a concrete two-level forest and concrete
    distinct ancestor chains. -/
theorem bomref_adjust_C5_witness :
    ((refChains []
        (adjustF []
          (CompForest.node "/r/a".data (dummyComponent .library "A".data)
            (CompForest.node "/r/a/x".data (dummyComponent .library "X".data) .nil .nil)
            .nil))).map (fun t => (t.2.1, t.2.2))
      = (refChains []
          (CompForest.node "/r/a".data (dummyComponent .library "A".data)
            (CompForest.node "/r/a/x".data (dummyComponent .library "X".data) .nil .nil)
            .nil)).map (fun t => (t.2.1, [] ++ (pipeJoin t.1 ++ t.2.2)))) ∧
    ("p".data ++ (pipeJoin ["a".data] ++ "v".data)
      ≠ "p".data ++ (pipeJoin ["b".data] ++ "v".data)) :=
  ⟨bomref_adjust_C5_amended.1 _ [] [],
   bomref_adjust_C5_amended.2 "p".data "v".data ["a".data] ["b".data] (by decide)⟩

theorem lookupStr_mem {p : Str} {c : Component} :
    ∀ {l : List (Str × Component)}, lookupStrComp p l = some c → (p, c) ∈ l := by
  intro l
  induction l with
  | nil => intro h; exact Option.noConfusion h
  | cons e r ih =>
    obtain ⟨k', c'⟩ := e
    intro h
    simp only [lookupStrComp] at h
    split_ifs at h with hk
    · injection h with h2
      subst hk
      subst h2
      exact List.mem_cons_self _ _
    · exact List.mem_cons_of_mem _ (ih h)

theorem mem_lookupStr {p : Str} {c : Component} :
    ∀ {l : List (Str × Component)}, (p, c) ∈ l → (l.map Prod.fst).Nodup →
      lookupStrComp p l = some c := by
  intro l
  induction l with
  | nil => intro h _; exact absurd h (List.not_mem_nil _)
  | cons e r ih =>
    obtain ⟨k', c'⟩ := e
    intro h hnd
    simp only [List.map_cons, List.nodup_cons] at hnd
    simp only [List.mem_cons] at h
    simp only [lookupStrComp]
    rcases h with h | h
    · injection h with h1 h2
      subst h1
      subst h2
      rw [if_pos rfl]
    · split_ifs with hk
      · subst hk
        exact absurd (List.mem_map_of_mem Prod.fst h) hnd.1
      · exact ih h hnd.2

theorem lookupStr_none_iff (p : Str) (l : List (Str × Component)) :
    lookupStrComp p l = none ↔ p ∉ l.map Prod.fst := by
  induction l with
  | nil => simp [lookupStrComp]
  | cons e r ih =>
    obtain ⟨k', c'⟩ := e
    simp only [lookupStrComp, List.map_cons, List.mem_cons]
    split_ifs with hk
    · subst hk
      constructor
      · intro h
        exact h.elim
      · intro h
        exact absurd (Or.inl rfl) h
    · rw [ih]
      constructor
      · intro h
        push_neg
        exact ⟨fun he => hk he.symm, h⟩
      · intro h
        push_neg at h
        exact h.2

theorem lookupStr_append (p : Str) (l1 l2 : List (Str × Component)) :
    lookupStrComp p (l1 ++ l2)
      = match lookupStrComp p l1 with
        | some c => some c
        | none => lookupStrComp p l2 := by
  induction l1 with
  | nil => simp [lookupStrComp]
  | cons e r ih =>
    obtain ⟨k', c'⟩ := e
    simp only [lookupStrComp, List.cons_append]
    split_ifs with hk
    · rfl
    · exact ih

theorem lookupForest_flat (p : Str) (l : List (Str × Component)) :
    lookupForest p (forestOfList l) = lookupStrComp p l := by
  induction l with
  | nil => rfl
  | cons e r ih =>
    obtain ⟨k', c'⟩ := e
    simp only [forestOfList, lookupForest, lookupStrComp]
    split_ifs with hk
    · rfl
    · exact ih

theorem flatShape_forestOfList (l : List (Str × Component)) :
    (forestOfList l).flatShape := by
  induction l with
  | nil => trivial
  | cons e r ih =>
    obtain ⟨k', c'⟩ := e
    exact ⟨rfl, ih⟩

theorem lookupForest_mem_allNodes {p : Str} {c : Component} :
    ∀ {f : CompForest}, lookupForest p f = some c → (p, c) ∈ f.allNodesCF := by
  intro f
  induction f with
  | nil => intro h; exact Option.noConfusion h
  | node p' c' ch r ihch ihr =>
    intro h
    simp only [lookupForest] at h
    simp only [CompForest.allNodesCF, List.mem_cons, List.mem_append]
    split_ifs at h with hk
    · injection h with h2
      subst hk
      subst h2
      exact Or.inl rfl
    · cases hch : lookupForest p ch with
      | some c2 =>
        rw [hch] at h
        injection h with h2
        subst h2
        exact Or.inr (Or.inl (ihch hch))
      | none =>
        rw [hch] at h
        exact Or.inr (Or.inr (ihr h))

theorem topEntries_sub_allNodes {e : Str × Component} :
    ∀ {f : CompForest}, e ∈ f.topEntries → e ∈ f.allNodesCF := by
  intro f
  induction f with
  | nil => intro h; exact absurd h (List.not_mem_nil _)
  | node p' c' ch r ihch ihr =>
    intro h
    simp only [CompForest.topEntries, List.mem_cons] at h
    simp only [CompForest.allNodesCF, List.mem_cons, List.mem_append]
    rcases h with h | h
    · exact Or.inl h
    · exact Or.inr (Or.inr (ihr h))

theorem allNodes_cat (f g : CompForest) :
    (f.cat g).allNodesCF = f.allNodesCF ++ g.allNodesCF := by
  induction f with
  | nil => rfl
  | node p c ch r ihch ihr => simp [CompForest.cat, CompForest.allNodesCF, ihr]

theorem nest_nodes {cmap : List (Str × Component)} {p : Str} {c : Component} :
    ∀ {t : PTree}, (p, c) ∈ (nestComponents cmap t).allNodesCF →
      lookupStrComp p cmap = some c := by
  intro t
  induction t with
  | nil => intro h; exact absurd h (List.not_mem_nil _)
  | node p0 pT r ihch ihr =>
    intro h
    simp only [nestComponents] at h
    cases hl : lookupStrComp p0 cmap with
    | none =>
      rw [hl] at h
      rw [allNodes_cat, List.mem_append] at h
      rcases h with h | h
      · exact ihch h
      · exact ihr h
    | some c0 =>
      rw [hl] at h
      simp only [CompForest.allNodesCF, List.mem_cons, List.mem_append] at h
      rcases h with h | h | h
      · injection h with h1 h2
        subst h1
        subst h2
        exact hl
      · exact ihch h
      · exact ihr h

theorem adjust_nodes_props {p : Str} {c' : Component} :
    ∀ {f : CompForest} {pref : Str}, (p, c') ∈ (adjustF pref f).allNodesCF →
      ∃ c'', (p, c'') ∈ f.allNodesCF ∧ c''.properties = c'.properties := by
  intro f
  induction f with
  | nil => intro pref h; exact absurd h (List.not_mem_nil _)
  | node p0 c0 ch r ihch ihr =>
    intro pref h
    simp only [adjustF] at h
    cases hb : c0.bomRef with
    | none =>
      rw [hb] at h
      simp only [CompForest.allNodesCF, List.mem_cons, List.mem_append] at h
      rcases h with h | h | h
      · injection h with h1 h2
        subst h1
        subst h2
        exact ⟨c', by simp [CompForest.allNodesCF], rfl⟩
      · exact ⟨c', by simp [CompForest.allNodesCF, h], rfl⟩
      · obtain ⟨c'', hm, hp⟩ := ihr h
        exact ⟨c'', by simp [CompForest.allNodesCF, hm], hp⟩
    | some v =>
      rw [hb] at h
      simp only [CompForest.allNodesCF, List.mem_cons, List.mem_append] at h
      rcases h with h | h | h
      · injection h with h1 h2
        subst h1
        subst h2
        exact ⟨c0, by simp [CompForest.allNodesCF], rfl⟩
      · obtain ⟨c'', hm, hp⟩ := ihch h
        exact ⟨c'', by simp [CompForest.allNodesCF, hm], hp⟩
      · obtain ⟨c'', hm, hp⟩ := ihr h
        exact ⟨c'', by simp [CompForest.allNodesCF, hm], hp⟩

theorem gatherNode_eq (omitDT : List OmittableDependencyType)
    (cb : RawFields → Option BuiltComp) (st : GState) (owner : Option Str) (data : RawNode) :
    gatherNode omitDT cb st owner data = gatherDeps omitDT cb st owner (RawNode.deps data) := by
  cases data with
  | mk f ds => rfl

theorem buildStComps_keys_nodup (omitDT : List OmittableDependencyType)
    (cb : RawFields → Option BuiltComp) (mt : ComponentType) (data : RawNode) :
    ((buildStComps omitDT cb mt data).map Prod.fst).Nodup := by
  simp only [buildStComps, gatherNode_eq]
  refine gatherDeps_nodup (RawDeps.dsize (RawNode.deps data)) omitDT cb _ _ _ le_rfl ?_
  simp

theorem buildComps2_keys (omitDT : List OmittableDependencyType)
    (cb : RawFields → Option BuiltComp) (relativeF : Str → Str → Str)
    (mt : ComponentType) (data : RawNode) (rp : Str) :
    (buildComps2 omitDT cb relativeF mt data rp).map Prod.fst
      = (buildStComps omitDT cb mt data).map Prod.fst := by
  simp only [buildComps2]
  split_ifs with h
  · rfl
  · rw [List.map_map]
    exact List.map_congr_left fun e _ => rfl

theorem buildComps2_keys_nodup (omitDT : List OmittableDependencyType)
    (cb : RawFields → Option BuiltComp) (relativeF : Str → Str → Str)
    (mt : ComponentType) (data : RawNode) (rp : Str) :
    ((buildComps2 omitDT cb relativeF mt data rp).map Prod.fst).Nodup := by
  rw [buildComps2_keys]
  exact buildStComps_keys_nodup omitDT cb mt data

theorem buildNonRoot_mem {comps2 : List (Option Str × Component)} {rp p : Str}
    {c : Component} (h : (some p, c) ∈ comps2) (hne : p ≠ rp) :
    (p, c) ∈ buildNonRoot comps2 rp := by
  simp only [buildNonRoot]
  refine List.mem_filterMap.mpr ⟨(some p, c), ?_, rfl⟩
  refine List.mem_filter.mpr ⟨h, ?_⟩
  simp [hne]

theorem mem_buildNonRoot_keys : ∀ {l : List (Option Str × Component)} {rp : Str} {p : Str},
    p ∈ (buildNonRoot l rp).map Prod.fst → some p ∈ l.map Prod.fst := by
  intro l rp p h
  simp only [buildNonRoot] at h
  obtain ⟨e, he, hfst⟩ := List.mem_map.mp h
  obtain ⟨e', he', hf⟩ := List.mem_filterMap.mp he
  have hmem : e' ∈ l := (List.mem_filter.mp he').1
  obtain ⟨o, c⟩ := e'
  cases o with
  | none => exact Option.noConfusion hf
  | some q =>
    injection hf with hf2
    rw [← hf2] at hfst
    simp only at hfst
    subst hfst
    exact List.mem_map_of_mem Prod.fst hmem

theorem buildNonRoot_keys_nodup :
    ∀ {l : List (Option Str × Component)} (rp : Str),
      (l.map Prod.fst).Nodup → ((buildNonRoot l rp).map Prod.fst).Nodup := by
  intro l
  induction l with
  | nil => intro rp h; simp [buildNonRoot]
  | cons e r ih =>
    intro rp h
    obtain ⟨o, c⟩ := e
    simp only [List.map_cons, List.nodup_cons] at h
    simp only [buildNonRoot, List.filter_cons]
    split_ifs with hc
    · cases o with
      | none => exact ih rp h.2
      | some q =>
        show (List.map Prod.fst ((q, c) :: buildNonRoot r rp)).Nodup
        simp only [List.map_cons, List.nodup_cons]
        exact ⟨fun hq => h.1 (mem_buildNonRoot_keys hq), ih rp h.2⟩
    · exact ih rp h.2

theorem forest_props_of_mem {nr : List (Str × Component)} {tri : PTree} {p : Str}
    {c cc : Component} (hlook : lookupStrComp p nr = some c)
    (hm : (p, cc) ∈ (adjustF [] (nestComponents nr tri)).allNodesCF) :
    cc.properties = c.properties := by
  obtain ⟨c'', hm2, hp2⟩ := adjust_nodes_props hm
  have hn := nest_nodes hm2
  rw [hlook] at hn
  injection hn with hn2
  rw [hn2]
  exact hp2.symm

theorem flat_lookup_props (nr : List (Str × Component)) (tri : PTree) (p : Str) (c : Component)
    (hnd : (nr.map Prod.fst).Nodup) (hm : (p, c) ∈ nr) :
    ∃ c', lookupForest p (forestOfList
        ((adjustF [] (nestComponents nr tri)).topEntries ++
          ((nr.filter fun e =>
              e.1 ∉ (adjustF [] (nestComponents nr tri)).topEntries.map Prod.fst).map
            fun e => (e.1, match lookupForest e.1 (adjustF [] (nestComponents nr tri)) with
              | some c => c
              | none => e.2)))) = some c' ∧ c'.properties = c.properties := by
  have hlookNR : lookupStrComp p nr = some c := mem_lookupStr hm hnd
  set f1 := adjustF [] (nestComponents nr tri) with hf1
  by_cases htop : p ∈ f1.topEntries.map Prod.fst
  · cases hlt : lookupStrComp p f1.topEntries with
    | none => exact absurd htop ((lookupStr_none_iff _ _).mp hlt)
    | some c' =>
      refine ⟨c', ?_, ?_⟩
      · rw [lookupForest_flat, lookupStr_append, hlt]
      · have hmem1 : (p, c') ∈ f1.allNodesCF := topEntries_sub_allNodes (lookupStr_mem hlt)
        rw [hf1] at hmem1
        exact forest_props_of_mem hlookNR hmem1
  · have hltn : lookupStrComp p f1.topEntries = none := (lookupStr_none_iff _ _).mpr htop
    have hflt : (p, c) ∈ nr.filter fun e => e.1 ∉ f1.topEntries.map Prod.fst :=
      List.mem_filter.mpr ⟨hm, by simpa using htop⟩
    have hsubnd : (((nr.filter fun e => e.1 ∉ f1.topEntries.map Prod.fst).map
        fun e => (e.1, match lookupForest e.1 f1 with | some c => c | none => e.2)).map
          Prod.fst).Nodup := by
      rw [List.map_map]
      have he : ((nr.filter fun e => e.1 ∉ f1.topEntries.map Prod.fst).map
          (Prod.fst ∘ fun e : Str × Component =>
            (e.1, match lookupForest e.1 f1 with | some c => c | none => e.2)))
          = (nr.filter fun e => e.1 ∉ f1.topEntries.map Prod.fst).map Prod.fst :=
        List.map_congr_left fun e _ => rfl
      rw [he]
      exact List.Nodup.sublist ((List.filter_sublist _).map Prod.fst) hnd
    cases hlf : lookupForest p f1 with
    | none =>
      have hmr : (p, c) ∈ (nr.filter fun e => e.1 ∉ f1.topEntries.map Prod.fst).map
          fun e => (e.1, match lookupForest e.1 f1 with | some c => c | none => e.2) := by
        have h0 := List.mem_map_of_mem (fun e : Str × Component =>
          (e.1, match lookupForest e.1 f1 with | some c => c | none => e.2)) hflt
        simpa [hlf] using h0
      refine ⟨c, ?_, rfl⟩
      rw [lookupForest_flat, lookupStr_append, hltn]
      exact mem_lookupStr hmr hsubnd
    | some cc =>
      have hmr : (p, cc) ∈ (nr.filter fun e => e.1 ∉ f1.topEntries.map Prod.fst).map
          fun e => (e.1, match lookupForest e.1 f1 with | some c => c | none => e.2) := by
        have h0 := List.mem_map_of_mem (fun e : Str × Component =>
          (e.1, match lookupForest e.1 f1 with | some c => c | none => e.2)) hflt
        simpa [hlf] using h0
      refine ⟨cc, ?_, ?_⟩
      · rw [lookupForest_flat, lookupStr_append, hltn]
        exact mem_lookupStr hmr hsubnd
      · have hmem1 : (p, cc) ∈ f1.allNodesCF := lookupForest_mem_allNodes hlf
        rw [hf1] at hmem1
        exact forest_props_of_mem hlookNR hmem1

/-- C4 counterexample: in flatten mode the reference-token prefixing is NOT
    skipped and no "was nested under" marker property is recorded. On a root
    with dependency a and nested dependency b, the flattened component at
    b's install path carries the ancestor-prefixed token "a@1|b@1" (not its
    own token "b@1"), and its property list holds exactly the install-path
    property - no provenance marker of any kind. -/
theorem flatten_C4_counterexample :
    ∃ bom, buildFromNpmLs true [] cbSimple relSimple .application rawFlatten = some bom ∧
      bom.components.flatShape ∧
      (lookupForest "/r/node_modules/a/node_modules/b".data bom.components).map
        (fun c => (c.bomRef, c.properties))
      = some (some "a@1|b@1".data,
              [(PropertyNames.PackageInstallPath, "node_modules/a/node_modules/b".data)]) := by
  refine ⟨_, rfl, ?_, ?_⟩
  · exact flatShape_forestOfList _
  · rfl

set_option maxHeartbeats 2000000 in
/-- C4 amended: when flatten mode is active and the raw root path is a string,
    the build succeeds, every node of the resulting components forest has an
    empty child list, and every non-root entry of the component map appears in
    the top-level forest under its install path with its property list intact -
    the bom-ref adjustment still runs (its ancestor-chain prefixing is not
    skipped) and no marker property is added, so only the properties are
    asserted unchanged, not the reference tokens. -/
theorem flatten_C4_amended (omitDT : List OmittableDependencyType)
    (cb : RawFields → Option BuiltComp) (relativeF : Str → Str → Str)
    (mt : ComponentType) (data : RawNode) (rp : Str)
    (hp : (RawNode.fields data).path = some rp) :
    ∃ bom, buildFromNpmLs true omitDT cb relativeF mt data = some bom ∧
      bom.components.flatShape ∧
      ∀ p c, (some p, c) ∈ buildComps2 omitDT cb relativeF mt data rp → p ≠ rp →
        ∃ c', lookupForest p bom.components = some c' ∧ c'.properties = c.properties := by
  cases hb : buildFromNpmLs true omitDT cb relativeF mt data with
  | none =>
    simp only [buildFromNpmLs, hp] at hb
    exact Option.noConfusion hb
  | some bom =>
    simp only [buildFromNpmLs, hp] at hb
    injection hb with hb2
    refine ⟨bom, rfl, ?_, ?_⟩
    · rw [← hb2]
      exact flatShape_forestOfList _
    · intro p c hmem hne
      rw [← hb2]
      exact flat_lookup_props (buildNonRoot (buildComps2 omitDT cb relativeF mt data rp) rp)
        (fromPaths ((buildComps2 omitDT cb relativeF mt data rp).filterMap fun e => e.1)
          (sepOf rp))
        p c
        (buildNonRoot_keys_nodup rp (buildComps2_keys_nodup omitDT cb relativeF mt data rp))
        (buildNonRoot_mem hmem hne)

/-- Witness for the amended C4 on the concrete nested example tree: the
    hypothesis that the root path is a string holds definitionally. -/
theorem flatten_C4_witness :
    (RawNode.fields rawFlatten).path = some "/r".data ∧
    ∃ bom, buildFromNpmLs true [] cbSimple relSimple .application rawFlatten = some bom ∧
      bom.components.flatShape ∧
      ∀ p c, (some p, c) ∈ buildComps2 [] cbSimple relSimple .application rawFlatten "/r".data →
        p ≠ "/r".data →
        ∃ c', lookupForest p bom.components = some c' ∧ c'.properties = c.properties :=
  ⟨rfl, flatten_C4_amended [] cbSimple relSimple .application rawFlatten "/r".data rfl⟩

theorem keysOkR_keys {sep : Char} : ∀ {t : PTree}, keysOkR sep t → ∀ k ∈ t.keys, keyOkP sep k := by
  intro t
  induction t with
  | nil => intro _ k hk; simp [PTree.keys] at hk
  | node k' c r ihc ihr =>
    intro h k hk
    simp only [PTree.keys, List.mem_cons] at hk
    rcases hk with rfl | hk
    · exact h.1
    · exact ihr h.2.2 k hk

theorem keyOkP_append {sep : Char} {p : Str} (pref : Str) (h : keyOkP sep p) :
    keyOkP sep (pref ++ p) := by
  refine ⟨fun he => h.1 (List.append_eq_nil.mp he).2, ?_⟩
  rw [List.getLast?_append_of_ne_nil _ h.1]
  exact h.2

theorem keyOkP_inj_dropLast {sep : Char} {a b : Str} (ha : keyOkP sep a) (hb : keyOkP sep b)
    (h : a.dropLast = b.dropLast) : a = b := by
  have h2 : a.dropLast ++ [sep] = b.dropLast ++ [sep] := by rw [h]
  rw [← keyOkP_decomp ha, ← keyOkP_decomp hb] at h2
  exact h2

theorem renderSpine_eq_renderPR {sep : Char} :
    ∀ (s : PTree) (pref : Str) (q : PTree),
      keysOkR sep s → (PTree.gp s).Nodup →
      (∀ x ∈ PTree.gp s, ((pref ++ x).dropLast).getLast? ≠ some sep) →
      (∀ p ∈ s.keys, (pref ++ p).dropLast ∉ q.keys) →
      renderSpine pref s (s.cat q) = q.cat (renderPR pref s) := by
  intro s
  induction s with
  | nil =>
    intro pref q _ _ _ _
    show renderSpine pref .nil (PTree.cat .nil q) = q.cat (renderPR pref .nil)
    simp [renderSpine, PTree.cat, renderPR, cat_nil]
  | node p pT r ihc ihr =>
    intro pref q hok hnd hC hD
    have hkeyp : keyOkP sep p := hok.1
    have hCc : ∀ x ∈ PTree.gp pT, (((pref ++ p) ++ x).dropLast).getLast? ≠ some sep := by
      intro x hx
      have hx2 : p ++ x ∈ PTree.gp (.node p pT r) := by
        simp only [PTree.gp, List.mem_cons, List.mem_append]
        exact Or.inr (Or.inl (List.mem_map_of_mem _ hx))
      have h3 := hC (p ++ x) hx2
      rwa [← List.append_assoc] at h3
    have hDc : ∀ p' ∈ pT.keys, ((pref ++ p) ++ p').dropLast ∉ (PTree.nil).keys := by
      intro p' _ hmem
      simp [PTree.keys] at hmem
    have hch : renderSpine (pref ++ p) pT pT = renderPR (pref ++ p) pT := by
      have h0 := ihc (pref ++ p) .nil hok.2.1 (nodup_gp_node hnd).1 hCc hDc
      rw [cat_nil] at h0
      exact h0
    have hrk : keyOkP sep (pref ++ p) := keyOkP_append pref hkeyp
    have hrk_not : ((pref ++ p).dropLast).getLast? ≠ some sep := by
      have hp2 : p ∈ PTree.gp (.node p pT r) := by
        simp [PTree.gp]
      exact hC p hp2
    have hkeysnd : (PTree.keys (.node p pT r)).Nodup :=
      List.Nodup.sublist (keys_sublist_gp _) hnd
    have hpnotr : p ∉ r.keys := by
      simp only [PTree.keys, List.nodup_cons] at hkeysnd
      exact hkeysnd.1
    have hdel : PTree.delK p (.node p pT (r.cat q)) = r.cat q := by
      simp [PTree.delK]
    have hfresh : (pref ++ p).dropLast ∉ (r.cat q).keys := by
      rw [keys_cat, List.mem_append]
      rintro (hmem | hmem)
      · exact hrk_not (keysOkR_keys hok.2.2 _ hmem).2
      · exact hD p (by simp [PTree.keys]) hmem
    have hset : PTree.setK ((pref ++ p).dropLast) (renderPR (pref ++ p) pT) (r.cat q)
        = (r.cat q).cat (.node ((pref ++ p).dropLast) (renderPR (pref ++ p) pT) .nil) :=
      setK_fresh _ _ _ hfresh
    have hCr : ∀ x ∈ PTree.gp r, ((pref ++ x).dropLast).getLast? ≠ some sep := by
      intro x hx
      refine hC x ?_
      simp only [PTree.gp, List.mem_cons, List.mem_append]
      exact Or.inr (Or.inr hx)
    have hDr : ∀ p' ∈ r.keys, (pref ++ p').dropLast
        ∉ (q.cat (.node ((pref ++ p).dropLast) (renderPR (pref ++ p) pT) .nil)).keys := by
      intro p' hp'
      rw [keys_cat, List.mem_append]
      rintro (hmem | hmem)
      · exact hD p' (by simp [PTree.keys, hp']) hmem
      · simp only [PTree.keys, List.mem_cons, List.not_mem_nil, or_false] at hmem
        have hkp' : keyOkP sep p' := keysOkR_keys hok.2.2 p' hp'
        have heq : pref ++ p' = pref ++ p :=
          keyOkP_inj_dropLast (keyOkP_append pref hkp') hrk hmem
        have heq2 : p' = p := List.append_cancel_left heq
        exact hpnotr (heq2 ▸ hp')
    simp only [renderSpine, PTree.cat]
    rw [hch, hdel, hset, cat_assoc]
    rw [ihr pref (q.cat (.node ((pref ++ p).dropLast) (renderPR (pref ++ p) pT) .nil))
      hok.2.2 (nodup_gp_node hnd).2 hCr hDr]
    rw [cat_assoc]
    rfl

theorem fromPathsM_eq_fromPaths (paths : List Str) (sep : Char) (hnd : paths.Nodup)
    (hlast : ∀ p ∈ paths, p.getLast? ≠ some sep) :
    fromPathsM paths sep = fromPaths paths sep := by
  unfold fromPathsM fromPaths nestPT
  have hok : keysOkR sep
      (nestPTFuel (PTree.psize (fromPathsInit paths sep)) (fromPathsInit paths sep)) :=
    keysOkR_nestPTFuel _ _ (keysOkR_fromPathsInit paths sep)
  have hndgp0 : (fromPathsInit paths sep).gp.Nodup := by
    rw [gp_fromPathsInit]
    exact hnd.map (List.append_left_injective [sep])
  have hperm := gp_nestPTFuel (PTree.psize (fromPathsInit paths sep)) _ hndgp0
  have hndgp : (nestPTFuel (PTree.psize (fromPathsInit paths sep))
      (fromPathsInit paths sep)).gp.Nodup := hperm.nodup_iff.mpr hndgp0
  have hC : ∀ x ∈ (nestPTFuel (PTree.psize (fromPathsInit paths sep))
      (fromPathsInit paths sep)).gp, ((([] : Str) ++ x).dropLast).getLast? ≠ some sep := by
    intro x hx
    have hx0 : x ∈ (fromPathsInit paths sep).gp := hperm.subset hx
    rw [gp_fromPathsInit] at hx0
    obtain ⟨p, hp, rfl⟩ := List.mem_map.mp hx0
    rw [List.nil_append, List.dropLast_concat]
    exact hlast p hp
  have hD : ∀ p ∈ (nestPTFuel (PTree.psize (fromPathsInit paths sep))
      (fromPathsInit paths sep)).keys, (([] : Str) ++ p).dropLast ∉ (PTree.nil).keys := by
    intro p _ hmem
    simp [PTree.keys] at hmem
  have h := renderSpine_eq_renderPR _ [] .nil hok hndgp hC hD
  rw [cat_nil] at h
  exact h

/-- C10 counterexample: the render pass does NOT give one node per input path
    on every duplicate-free path list. On the paths /r, /r/b/ and /r//r/b with
    separator '/', the nested tree holds the sibling keys b// and /r/b/ under
    the node /r/; rendering b// under the prefix /r/ re-sets it under the key
    /r/b/, which Map.set replaces into the still-present sibling entry of that
    raw key, and that entry's own later snapshot step deletes it - with the
    exact Map semantics fromPaths keeps only two nodes for the three paths,
    losing the path /r/b/ entirely. -/
theorem render_loss_C10_counterexample :
    fromPathsM ["/r".data, "/r/b/".data, "/r//r/b".data] '/'
      = PTree.node "/r".data (PTree.node "/r//r/b".data .nil .nil) .nil ∧
    ["/r".data, "/r/b/".data, "/r//r/b".data].Nodup ∧
    "/r/b/".data ∉ PTree.fkeys (fromPathsM ["/r".data, "/r/b/".data, "/r//r/b".data] '/') ∧
    ¬ List.Perm (PTree.fkeys (fromPathsM ["/r".data, "/r/b/".data, "/r//r/b".data] '/'))
        ["/r".data, "/r/b/".data, "/r//r/b".data] :=
  ⟨by decide, by decide, by decide, by decide⟩

/-- C10 amended: under the exact Map semantics of the render pass, the
    exactly-one-node-per-path property holds for every duplicate-free path list
    in which no path ends with the separator: every raw trie key carries the
    synthetic trailing separator while every rendered key - a full
    reconstructed path - then does not, so no Map.set collision can occur, the
    render pass is lossless, and the multiset of node keys of the resulting
    trie is a permutation of the input path list. -/
theorem render_exact_C10_amended (paths : List Str) (sep : Char) (hnd : paths.Nodup)
    (hlast : ∀ p ∈ paths, p.getLast? ≠ some sep) :
    List.Perm (PTree.fkeys (fromPathsM paths sep)) paths := by
  rw [fromPathsM_eq_fromPaths paths sep hnd hlast]
  exact fkeys_fromPaths_perm paths sep hnd

/-- Witness for the amended C10 at the three specification example paths, none
    of which ends with the separator. -/
theorem render_exact_C10_witness :
    (["/proj".data, "/proj/node_modules/a".data,
        "/proj/node_modules/a/node_modules/b".data] : List Str).Nodup ∧
    (∀ p ∈ (["/proj".data, "/proj/node_modules/a".data,
        "/proj/node_modules/a/node_modules/b".data] : List Str), p.getLast? ≠ some '/') ∧
    List.Perm (PTree.fkeys (fromPathsM ["/proj".data, "/proj/node_modules/a".data,
        "/proj/node_modules/a/node_modules/b".data] '/'))
      ["/proj".data, "/proj/node_modules/a".data,
        "/proj/node_modules/a/node_modules/b".data] :=
  ⟨by decide, by decide,
    render_exact_C10_amended ["/proj".data, "/proj/node_modules/a".data,
      "/proj/node_modules/a/node_modules/b".data] '/' (by decide) (by decide)⟩
